import Mathlib

/-!
# Verification of the HHelper prerequisite/plan validator

Shallow embedding of `PrerequisiteValidator.validate_plan` from
`src/backend/main.py` together with proofs about the claims of the
specification.  Python strings used as term keys are modelled as `List Char`;
Python's `str(int)`, `int(str)`, `str.split('-')` and string comparison are
embedded as executable Lean functions with the same semantics on the values
the validator can produce.  Python exceptions (`ValueError` from tuple
unpacking / `int()`) are modelled with `Except`.
-/

namespace HHelper

/-- Decimal digits of `n`, most significant first, computed with structural
fuel (`fuel` bounds the recursion depth; `natDigits` supplies enough).
Mirrors Python's `str` on a nonnegative integer. -/
def natDigitsAux : Nat → Nat → List Char
  | 0, _ => []
  | fuel + 1, n =>
    if n < 10 then [Char.ofNat (48 + n)]
    else natDigitsAux fuel (n / 10) ++ [Char.ofNat (48 + n % 10)]

/-- Decimal representation of a natural number, as Python's `str`. -/
def natDigits (n : Nat) : List Char :=
  natDigitsAux (n + 1) n

/-- Python `str(i)` for an integer `i`. -/
def intStr (i : Int) : List Char :=
  if i < 0 then '-' :: natDigits (-i).toNat else natDigits i.toNat

/-- Python `str(n)` for a natural number, packaged as a `String`. -/
def natStr (n : Nat) : String :=
  String.mk (natDigits n)

/-- Numeric value of a decimal digit character, `none` for non-digits. -/
def digitVal (c : Char) : Option Nat :=
  if '0' ≤ c ∧ c ≤ '9' then some (c.toNat - 48) else none

/-- Left-to-right accumulating decimal parse; fails on a non-digit. -/
def parseNatAux : List Char → Nat → Option Nat
  | [], acc => some acc
  | c :: rest, acc =>
    match digitVal c with
    | some d => parseNatAux rest (acc * 10 + d)
    | none => none

/-- Python `int(s)` on a string of decimal digits (`int("")` fails). -/
def parseNat (l : List Char) : Option Nat :=
  match l with
  | [] => none
  | _ => parseNatAux l 0

/-- Python `int(s)` on an optionally `-`-signed string of decimal digits. -/
def parseInt : List Char → Option Int
  | [] => none
  | c :: rest =>
    if c = '-' then (parseNat rest).map (fun n => -(n : Int))
    else (parseNat (c :: rest)).map (fun n => (n : Int))

/-- Python `s.split('-')`: splits at every `'-'`, keeping empty pieces. -/
def splitDash : List Char → List (List Char)
  | [] => [[]]
  | c :: rest =>
    if c = '-' then [] :: splitDash rest
    else
      match splitDash rest with
      | [] => [[c]]
      | p :: ps => (c :: p) :: ps

/-- Python string comparison `a <= b` (lexicographic on code points). -/
def keyLe : List Char → List Char → Bool
  | [], _ => true
  | _ :: _, [] => false
  | a :: as, b :: bs =>
    if a < b then true else if b < a then false else keyLe as bs

/-- The ordering relation used to sort term keys, as a `Prop`. -/
def KeyLE (a b : List Char) : Prop :=
  keyLe a b = true

instance : DecidableRel KeyLE := fun a b => decEq (keyLe a b) true

/-- Python's `sorted` on a list of term-key strings. -/
def sortKeys (l : List (List Char)) : List (List Char) :=
  List.insertionSort KeyLE l

/-! The data model: the pydantic models of `main.py`. -/

/-- `PlanCourse` of `main.py`: one course placed into one term. -/
structure PlanCourse where
  courseCode : String
  year : Int
  semester : String
deriving DecidableEq

/-- `StudentPlan` of `main.py`. -/
structure StudentPlan where
  courses : List PlanCourse
  startYear : Int := 2024
deriving DecidableEq

/-- `ValidationError` of `main.py`: one finding (error or warning). -/
structure ValidationError where
  courseCode : String
  year : Int
  semester : String
  error : String
  severity : String := "error"
deriving DecidableEq

/-- `PlanValidationResult` of `main.py`. -/
structure PlanValidationResult where
  isValid : Bool
  errors : List ValidationError := []
  warnings : List ValidationError := []
deriving DecidableEq

/-- A prerequisite graph: association list from course code to its
prerequisite codes (a Python dict, insertion ordered). -/
abbrev Graph := List (String × List String)

/-- Python `graph.get(code, [])`. -/
def graphGet (g : Graph) (code : String) : List String :=
  match g.find? (fun p => p.1 == code) with
  | some p => p.2
  | none => []

/-- The demo graph built by `PrerequisiteValidator._build_course_graph`. -/
def course_graph : Graph :=
  [("CS 1110", []),
   ("CS 2100", ["CS 1110"]),
   ("CS 2120", ["CS 2100"]),
   ("CS 3100", ["CS 2100", "CS 2120"]),
   ("CS 4750", ["CS 2120"]),
   ("CS 4710", ["CS 2120"]),
   ("MATH 1310", []),
   ("MATH 1320", ["MATH 1310"]),
   ("MATH 2310", ["MATH 1320"]),
   ("APMA 3080", ["MATH 1320"])]

/-- The key `f"{course.year}-{'1' if course.semester == 'Fall' else '2'}"`. -/
def semesterKey (c : PlanCourse) : List Char :=
  intStr c.year ++ ['-', if c.semester = "Fall" then '1' else '2']

/-- The timeline dict: insertion-ordered association list from term key to
the list of course codes appended for that key. -/
abbrev Timeline := List (List Char × List String)

/-- One step of timeline building: append `code` to the bucket of `key`,
creating the bucket at the end if absent (Python dict insertion order). -/
def addToTimeline : Timeline → List Char → String → Timeline
  | [], key, code => [(key, [code])]
  | (k, cs) :: rest, key, code =>
    if k = key then (k, cs ++ [code]) :: rest
    else (k, cs) :: addToTimeline rest key code

/-- The `timeline` dict of `validate_plan` after the first loop. -/
def buildTimeline (courses : List PlanCourse) : Timeline :=
  courses.foldl (fun tl c => addToTimeline tl (semesterKey c) c.courseCode) []

/-- `timeline.keys()` in insertion order. -/
def timelineKeys (tl : Timeline) : List (List Char) :=
  tl.map Prod.fst

/-- `timeline[key]` (with `[]` for an absent key; never hit by the code). -/
def lookupTL (tl : Timeline) (k : List Char) : List String :=
  match tl.find? (fun p => p.1 == k) with
  | some p => p.2
  | none => []

/-- `next((c for c in plan.courses if c.courseCode == course_code), None)`. -/
def findCourse (courses : List PlanCourse) (code : String) : Option PlanCourse :=
  courses.find? (fun c => c.courseCode == code)

/-- The inner prerequisite loop for one `course_code` of the current term:
one error per prerequisite that is neither completed nor in the current
term's course list, located at the first plan entry with that code. -/
def courseErrors (g : Graph) (allCourses : List PlanCourse)
    (completed termCs : List String) (code : String) : List ValidationError :=
  (graphGet g code).filterMap (fun prereq =>
    if prereq ∉ completed ∧ prereq ∉ termCs then
      match findCourse allCourses code with
      | some ci =>
        some { courseCode := code, year := ci.year, semester := ci.semester,
               error := "Missing prerequisite: " ++ prereq, severity := "error" }
      | none => none
    else none)

/-- All prerequisite errors produced while processing one term. -/
def termErrors (g : Graph) (allCourses : List PlanCourse)
    (completed termCs : List String) : List ValidationError :=
  termCs.flatMap (courseErrors g allCourses completed termCs)

/-- The chronological walk of `validate_plan`: process the keys in order,
accumulating the `completed` set (modelled as a list, membership only). -/
def walkTerms (g : Graph) (allCourses : List PlanCourse) (tl : Timeline) :
    List (List Char) → List String → List ValidationError
  | [], _ => []
  | k :: ks, completed =>
    termErrors g allCourses completed (lookupTL tl k) ++
      walkTerms g allCourses tl ks (completed ++ lookupTL tl k)

/-- The full `errors` list of `validate_plan`. -/
def planErrors (g : Graph) (courses : List PlanCourse) : List ValidationError :=
  walkTerms g courses (buildTimeline courses)
    (sortKeys (timelineKeys (buildTimeline courses))) []

/-- Message of a low credit load warning. -/
def lowMsg (total : Nat) : String :=
  "Low credit load: " ++ natStr total ++ " credits (minimum 12 recommended)"

/-- Message of a high credit load warning. -/
def highMsg (total : Nat) : String :=
  "High credit load: " ++ natStr total ++ " credits (maximum 18 recommended)"

/-- `"Fall" if sem == "1" else "Spring"`. -/
def semName (s : List Char) : String :=
  if s = ['1'] then "Fall" else "Spring"

/-- The credit-load loop over `timeline.items()` in insertion order.
A key that does not split into exactly two pieces raises `ValueError`
(tuple unpacking); `int(year)` is evaluated only when a warning is
appended, exactly as in the source. -/
def planWarnings : Timeline → Except String (List ValidationError)
  | [] => .ok []
  | (k, cs) :: rest =>
    match splitDash k with
    | [y, s] =>
      if cs.length * 3 < 12 then
        match parseInt y with
        | some n =>
          (planWarnings rest).map (fun ws =>
            { courseCode := "", year := n, semester := semName s,
              error := lowMsg (cs.length * 3), severity := "warning" } :: ws)
        | none => .error "ValueError: invalid literal for int()"
      else if cs.length * 3 > 18 then
        match parseInt y with
        | some n =>
          (planWarnings rest).map (fun ws =>
            { courseCode := "", year := n, semester := semName s,
              error := highMsg (cs.length * 3), severity := "warning" } :: ws)
        | none => .error "ValueError: invalid literal for int()"
      else planWarnings rest
    | _ => .error "ValueError: unpacking semester_key.split failed"

/-- `PrerequisiteValidator.validate_plan`, with the validator's graph as an
explicit parameter (it is instance state `self.course_graph` in the source;
the process-wide instance uses `course_graph`).  A Python exception is an
`Except.error`. -/
def validate_plan (g : Graph) (plan : StudentPlan) :
    Except String PlanValidationResult :=
  match planWarnings (buildTimeline plan.courses) with
  | .ok warnings =>
    .ok { isValid := (planErrors g plan.courses).length == 0,
          errors := planErrors g plan.courses,
          warnings := warnings }
  | .error e => .error e

/-- Total variant of the key parse done by the credit-load loop. -/
def parseKeyO (k : List Char) : Option (Int × List Char) :=
  match splitDash k with
  | [y, s] => (parseInt y).map (fun n => (n, s))
  | _ => none

/-! Lemmas about decimal printing and parsing. -/

theorem digitChar_ne_dash {d : Nat} (h : d < 10) : Char.ofNat (48 + d) ≠ '-' := by
  interval_cases d <;> decide

theorem digitVal_digitChar {d : Nat} (h : d < 10) :
    digitVal (Char.ofNat (48 + d)) = some d := by
  interval_cases d <;> decide

theorem dash_not_mem_natDigitsAux (fuel n : Nat) : '-' ∉ natDigitsAux fuel n := by
  induction fuel generalizing n with
  | zero => simp [natDigitsAux]
  | succ fuel ih =>
    rw [natDigitsAux]
    split
    · simp only [List.mem_singleton]
      exact fun h => (digitChar_ne_dash (by omega)) h.symm
    · intro hmem
      rcases List.mem_append.mp hmem with h | h
      · exact ih _ h
      · simp only [List.mem_singleton] at h
        exact (digitChar_ne_dash (Nat.mod_lt _ (by omega))) h.symm

theorem dash_not_mem_natDigits (n : Nat) : '-' ∉ natDigits n :=
  dash_not_mem_natDigitsAux _ n

theorem natDigitsAux_ne_nil {fuel : Nat} (n : Nat) (h : 0 < fuel) :
    natDigitsAux fuel n ≠ [] := by
  cases fuel with
  | zero => omega
  | succ fuel =>
    rw [natDigitsAux]
    split
    · simp
    · simp

theorem natDigits_ne_nil (n : Nat) : natDigits n ≠ [] :=
  natDigitsAux_ne_nil n (Nat.succ_pos n)

theorem parseNatAux_append (xs ys : List Char) (acc : Nat) :
    parseNatAux (xs ++ ys) acc =
      match parseNatAux xs acc with
      | some a => parseNatAux ys a
      | none => none := by
  induction xs generalizing acc with
  | nil => simp [parseNatAux]
  | cons c rest ih =>
    simp only [List.cons_append, parseNatAux]
    cases digitVal c with
    | some d => exact ih _
    | none => rfl

theorem parseNatAux_natDigitsAux (fuel : Nat) :
    ∀ n acc, n < 10 ^ fuel →
      parseNatAux (natDigitsAux fuel n) acc =
        some (acc * 10 ^ (natDigitsAux fuel n).length + n) := by
  induction fuel with
  | zero =>
    intro n acc h
    simp only [pow_zero, Nat.lt_one_iff] at h
    subst h
    simp [natDigitsAux, parseNatAux]
  | succ fuel ih =>
    intro n acc h
    rw [natDigitsAux]
    split
    · rename_i hlt
      simp only [parseNatAux, digitVal_digitChar hlt, List.length_singleton,
        pow_one]
    · rename_i hge
      have hdiv : n / 10 < 10 ^ fuel := by
        rw [Nat.div_lt_iff_lt_mul (by omega)]
        calc n < 10 ^ (fuel + 1) := h
        _ = 10 ^ fuel * 10 := by rw [pow_succ]
      rw [parseNatAux_append]
      rw [ih (n / 10) acc hdiv]
      simp only [parseNatAux, digitVal_digitChar (Nat.mod_lt _ (by omega)),
        List.length_append, List.length_singleton]
      have hdm : 10 * (n / 10) + n % 10 = n := Nat.div_add_mod n 10
      have hpow : 10 ^ ((natDigitsAux fuel (n / 10)).length + 1) =
          10 ^ (natDigitsAux fuel (n / 10)).length * 10 := pow_succ 10 _
      congr 1
      rw [hpow]
      ring_nf
      omega

theorem parseNat_natDigits (n : Nat) : parseNat (natDigits n) = some n := by
  have hlt : n < 10 ^ (n + 1) := by
    calc n < 10 ^ n := Nat.lt_pow_self (by norm_num) n
    _ ≤ 10 ^ (n + 1) := Nat.pow_le_pow_right (by norm_num) (Nat.le_succ n)
  have h := parseNatAux_natDigitsAux (n + 1) n 0 hlt
  have hne := natDigits_ne_nil n
  rw [natDigits] at hne ⊢
  cases hd : natDigitsAux (n + 1) n with
  | nil => exact absurd hd hne
  | cons c cs =>
    rw [hd] at h
    simp [parseNat, h]

theorem parseInt_intStr {y : Int} (h : 0 ≤ y) : parseInt (intStr y) = some y := by
  have hstr : intStr y = natDigits y.toNat := by
    rw [intStr, if_neg (by omega)]
  rw [hstr]
  have hne := natDigits_ne_nil y.toNat
  have hdash := dash_not_mem_natDigits y.toNat
  cases hd : natDigits y.toNat with
  | nil => exact absurd hd hne
  | cons c cs =>
    rw [hd] at hdash
    have hc : c ≠ '-' := fun hc => hdash (hc ▸ List.mem_cons_self c cs)
    rw [parseInt, if_neg hc, ← hd, parseNat_natDigits]
    simp [Int.toNat_of_nonneg h]

/-! Lemmas about `splitDash`. -/

theorem splitDash_no_dash {xs : List Char} (h : '-' ∉ xs) :
    splitDash xs = [xs] := by
  induction xs with
  | nil => rfl
  | cons c rest ih =>
    have hc : c ≠ '-' := fun hc => h (hc ▸ List.mem_cons_self c rest)
    have hrest : '-' ∉ rest := fun hr => h (List.mem_cons_of_mem c hr)
    rw [splitDash, if_neg hc, ih hrest]

theorem splitDash_append_dash {xs : List Char} (ys : List Char)
    (h : '-' ∉ xs) : splitDash (xs ++ '-' :: ys) = xs :: splitDash ys := by
  induction xs with
  | nil => simp [splitDash]
  | cons c rest ih =>
    have hc : c ≠ '-' := fun hc => h (hc ▸ List.mem_cons_self c rest)
    have hrest : '-' ∉ rest := fun hr => h (List.mem_cons_of_mem c hr)
    rw [List.cons_append, splitDash, if_neg hc, ih hrest]

theorem splitDash_semesterKey {c : PlanCourse} (h : 0 ≤ c.year) :
    splitDash (semesterKey c) =
      [intStr c.year, [if c.semester = "Fall" then '1' else '2']] := by
  have hdash : '-' ∉ intStr c.year := by
    rw [intStr, if_neg (by omega)]
    exact dash_not_mem_natDigits _
  have hd : ('-' : Char) ∉ [if c.semester = "Fall" then '1' else '2'] := by
    split <;> decide
  rw [semesterKey]
  have : intStr c.year ++ ['-', if c.semester = "Fall" then '1' else '2'] =
      intStr c.year ++ '-' :: [if c.semester = "Fall" then '1' else '2'] := rfl
  rw [this, splitDash_append_dash _ hdash, splitDash_no_dash hd]

theorem parseKeyO_semesterKey {c : PlanCourse} (h : 0 ≤ c.year) :
    parseKeyO (semesterKey c) =
      some (c.year, [if c.semester = "Fall" then '1' else '2']) := by
  rw [parseKeyO, splitDash_semesterKey h]
  simp [parseInt_intStr h]

theorem semesterKey_inj {c₁ c₂ : PlanCourse} (h₁ : 0 ≤ c₁.year)
    (h₂ : 0 ≤ c₂.year) (hk : semesterKey c₁ = semesterKey c₂) :
    c₁.year = c₂.year ∧
      (if c₁.semester = "Fall" then '1' else '2') =
        (if c₂.semester = "Fall" then '1' else '2') := by
  have := (parseKeyO_semesterKey h₁).symm.trans
    (hk ▸ parseKeyO_semesterKey h₂)
  simp only [Option.some.injEq, Prod.mk.injEq, List.cons.injEq] at this
  exact ⟨this.1, this.2.1⟩

/-! The key comparison is a linear order; `sortKeys` sorts by it. -/

theorem keyLe_total (a b : List Char) : keyLe a b = true ∨ keyLe b a = true := by
  induction a generalizing b with
  | nil => left; rfl
  | cons x xs ih =>
    cases b with
    | nil => right; rfl
    | cons y ys =>
      rcases lt_trichotomy x y with h | h | h
      · left; simp [keyLe, h]
      · subst h
        rcases ih ys with h' | h'
        · left; simp [keyLe, lt_irrefl, h']
        · right; simp [keyLe, lt_irrefl, h']
      · right; simp [keyLe, h]

theorem keyLe_trans {a b c : List Char} (hab : keyLe a b = true)
    (hbc : keyLe b c = true) : keyLe a c = true := by
  induction a generalizing b c with
  | nil => rfl
  | cons x xs ih =>
    cases b with
    | nil => simp [keyLe] at hab
    | cons y ys =>
      cases c with
      | nil => simp [keyLe] at hbc
      | cons z zs =>
        simp only [keyLe] at hab hbc ⊢
        rcases lt_trichotomy x y with hxy | hxy | hxy
        · rcases lt_trichotomy y z with hyz | hyz | hyz
          · rw [if_pos (lt_trans hxy hyz)]
          · subst hyz
            rw [if_pos hxy]
          · rw [if_neg (lt_asymm hyz), if_pos hyz] at hbc
            simp at hbc
        · subst hxy
          rcases lt_trichotomy x z with hxz | hxz | hxz
          · rw [if_pos hxz]
          · subst hxz
            rw [if_neg (lt_irrefl x), if_neg (lt_irrefl x)] at hab hbc ⊢
            exact ih hab hbc
          · rw [if_neg (lt_asymm hxz), if_pos hxz] at hbc
            simp at hbc
        · rw [if_neg (lt_asymm hxy), if_pos hxy] at hab
          simp at hab

theorem keyLe_antisymm {a b : List Char} (hab : keyLe a b = true)
    (hba : keyLe b a = true) : a = b := by
  induction a generalizing b with
  | nil =>
    cases b with
    | nil => rfl
    | cons y ys => simp [keyLe] at hba
  | cons x xs ih =>
    cases b with
    | nil => simp [keyLe] at hab
    | cons y ys =>
      simp only [keyLe] at hab hba
      rcases lt_trichotomy x y with hxy | hxy | hxy
      · rw [if_neg (lt_asymm hxy), if_pos hxy] at hba
        simp at hba
      · subst hxy
        rw [if_neg (lt_irrefl x), if_neg (lt_irrefl x)] at hab hba
        rw [ih hab hba]
      · rw [if_neg (lt_asymm hxy), if_pos hxy] at hab
        simp at hab

instance : IsTotal (List Char) KeyLE := ⟨keyLe_total⟩

instance : IsTrans (List Char) KeyLE := ⟨fun _ _ _ => keyLe_trans⟩

instance : IsAntisymm (List Char) KeyLE := ⟨fun _ _ => keyLe_antisymm⟩

theorem sortKeys_perm (l : List (List Char)) : List.Perm (sortKeys l) l :=
  List.perm_insertionSort KeyLE l

theorem sortKeys_sorted (l : List (List Char)) : List.Sorted KeyLE (sortKeys l) :=
  List.sorted_insertionSort KeyLE l

theorem sortKeys_nodup {l : List (List Char)} (h : l.Nodup) :
    (sortKeys l).Nodup :=
  (sortKeys_perm l).symm.nodup h

theorem sortKeys_mem {l : List (List Char)} {k : List Char} :
    k ∈ sortKeys l ↔ k ∈ l :=
  (sortKeys_perm l).mem_iff

theorem sortKeys_congr {l l' : List (List Char)} (h : List.Perm l l') :
    sortKeys l = sortKeys l' :=
  List.eq_of_perm_of_sorted ((sortKeys_perm l).trans (h.trans (sortKeys_perm l').symm))
    (sortKeys_sorted l) (sortKeys_sorted l')

/-! Lemmas about the timeline dict. -/

theorem lookupTL_nil (k : List Char) : lookupTL [] k = [] := rfl

theorem lookupTL_cons (k1 : List Char) (cs1 : List String) (rest : Timeline)
    (k : List Char) :
    lookupTL ((k1, cs1) :: rest) k = if k1 = k then cs1 else lookupTL rest k := by
  by_cases h : k1 = k <;> simp [lookupTL, List.find?_cons, h]

theorem lookupTL_addToTimeline (tl : Timeline) (key : List Char) (code : String)
    (k : List Char) :
    lookupTL (addToTimeline tl key code) k =
      if k = key then lookupTL tl k ++ [code] else lookupTL tl k := by
  induction tl with
  | nil =>
    by_cases h : k = key
    · subst h
      simp [addToTimeline, lookupTL_cons, lookupTL_nil]
    · rw [addToTimeline, lookupTL_cons, lookupTL_nil,
        if_neg (fun hh : key = k => h hh.symm), if_neg h]
  | cons hd rest ih =>
    obtain ⟨k1, cs1⟩ := hd
    simp only [addToTimeline]
    by_cases h1 : k1 = key
    · subst h1
      rw [if_pos rfl, lookupTL_cons, lookupTL_cons]
      by_cases h2 : k1 = k
      · subst h2
        rw [if_pos rfl, if_pos rfl, if_pos rfl]
      · rw [if_neg h2, if_neg h2, if_neg (fun hh : k = k1 => h2 hh.symm)]
    · rw [if_neg h1, lookupTL_cons, lookupTL_cons]
      by_cases h2 : k1 = k
      · subst h2
        rw [if_pos rfl, if_pos rfl, if_neg (fun hh : k1 = key => h1 hh)]
      · rw [if_neg h2, if_neg h2, ih]

theorem lookupTL_foldl (courses : List PlanCourse) :
    ∀ (tl : Timeline) (k : List Char),
      lookupTL (courses.foldl
          (fun tl c => addToTimeline tl (semesterKey c) c.courseCode) tl) k =
        lookupTL tl k ++
          ((courses.filter (fun c => semesterKey c == k)).map
            PlanCourse.courseCode) := by
  induction courses with
  | nil => intro tl k; simp
  | cons c cs ih =>
    intro tl k
    rw [List.foldl_cons, ih, lookupTL_addToTimeline]
    by_cases h : semesterKey c = k
    · rw [if_pos h.symm, List.filter_cons_of_pos (by simp [h]),
        List.map_cons, List.append_assoc, List.singleton_append]
    · rw [if_neg (fun hh : k = semesterKey c => h hh.symm),
        List.filter_cons_of_neg (by simp [h])]

theorem lookupTL_buildTimeline (courses : List PlanCourse) (k : List Char) :
    lookupTL (buildTimeline courses) k =
      (courses.filter (fun c => semesterKey c == k)).map PlanCourse.courseCode := by
  rw [buildTimeline, lookupTL_foldl, lookupTL_nil, List.nil_append]

theorem timelineKeys_addToTimeline (tl : Timeline) (key : List Char)
    (code : String) :
    timelineKeys (addToTimeline tl key code) =
      if key ∈ timelineKeys tl then timelineKeys tl
      else timelineKeys tl ++ [key] := by
  induction tl with
  | nil => simp [addToTimeline, timelineKeys]
  | cons hd rest ih =>
    obtain ⟨k1, cs1⟩ := hd
    simp only [addToTimeline]
    by_cases h1 : k1 = key
    · subst h1
      simp [timelineKeys]
    · rw [if_neg h1]
      simp only [timelineKeys, List.map_cons] at ih ⊢
      rw [ih]
      by_cases h2 : key ∈ List.map Prod.fst rest
      · rw [if_pos h2, if_pos (List.mem_cons_of_mem _ h2)]
      · rw [if_neg h2, if_neg (by
          simp only [List.mem_cons]
          push_neg
          exact ⟨fun hh => h1 hh.symm, h2⟩), List.cons_append]

theorem mem_timelineKeys_foldl (courses : List PlanCourse) :
    ∀ (tl : Timeline) (k : List Char),
      k ∈ timelineKeys (courses.foldl
          (fun tl c => addToTimeline tl (semesterKey c) c.courseCode) tl) ↔
        k ∈ timelineKeys tl ∨ ∃ c ∈ courses, semesterKey c = k := by
  induction courses with
  | nil => intro tl k; simp
  | cons c cs ih =>
    intro tl k
    rw [List.foldl_cons, ih]
    rw [timelineKeys_addToTimeline]
    by_cases h : semesterKey c ∈ timelineKeys tl
    · rw [if_pos h]
      constructor
      · rintro (hk | ⟨c', hc', he⟩)
        · exact Or.inl hk
        · exact Or.inr ⟨c', List.mem_cons_of_mem _ hc', he⟩
      · rintro (hk | ⟨c', hc', he⟩)
        · exact Or.inl hk
        · rcases List.mem_cons.mp hc' with rfl | hc'
          · exact Or.inl (he ▸ h)
          · exact Or.inr ⟨c', hc', he⟩
    · rw [if_neg h]
      constructor
      · rintro (hk | ⟨c', hc', he⟩)
        · rcases List.mem_append.mp hk with hk | hk
          · exact Or.inl hk
          · have hke : k = semesterKey c := by simpa using hk
            exact Or.inr ⟨c, List.mem_cons_self c cs, hke.symm⟩
        · exact Or.inr ⟨c', List.mem_cons_of_mem _ hc', he⟩
      · rintro (hk | ⟨c', hc', he⟩)
        · exact Or.inl (List.mem_append.mpr (Or.inl hk))
        · rcases List.mem_cons.mp hc' with rfl | hc'
          · exact Or.inl (List.mem_append.mpr (Or.inr (by simp [he])))
          · exact Or.inr ⟨c', hc', he⟩

theorem mem_timelineKeys_buildTimeline {courses : List PlanCourse}
    {k : List Char} :
    k ∈ timelineKeys (buildTimeline courses) ↔
      ∃ c ∈ courses, semesterKey c = k := by
  rw [buildTimeline, mem_timelineKeys_foldl]
  simp [timelineKeys]

theorem timelineKeys_nodup_foldl (courses : List PlanCourse) :
    ∀ (tl : Timeline), (timelineKeys tl).Nodup →
      (timelineKeys (courses.foldl
        (fun tl c => addToTimeline tl (semesterKey c) c.courseCode) tl)).Nodup := by
  induction courses with
  | nil => intro tl h; exact h
  | cons c cs ih =>
    intro tl h
    rw [List.foldl_cons]
    apply ih
    rw [timelineKeys_addToTimeline]
    by_cases hm : semesterKey c ∈ timelineKeys tl
    · rw [if_pos hm]; exact h
    · rw [if_neg hm]
      simp [List.nodup_append, h, hm]

theorem timelineKeys_nodup (courses : List PlanCourse) :
    (timelineKeys (buildTimeline courses)).Nodup :=
  timelineKeys_nodup_foldl courses [] (by simp [timelineKeys])

theorem lookupTL_of_mem {tl : Timeline} {k : List Char} {cs : List String}
    (hnd : (timelineKeys tl).Nodup) (h : (k, cs) ∈ tl) : lookupTL tl k = cs := by
  induction tl with
  | nil => simp at h
  | cons hd rest ih =>
    obtain ⟨k1, cs1⟩ := hd
    simp only [timelineKeys, List.map_cons, List.nodup_cons] at hnd
    rcases List.mem_cons.mp h with heq | hmem
    · cases heq
      rw [lookupTL_cons, if_pos rfl]
    · have hk : k1 ≠ k := by
        rintro rfl
        exact hnd.1 (List.mem_map.mpr ⟨(k1, cs), hmem, rfl⟩)
      rw [lookupTL_cons, if_neg hk]
      exact ih hnd.2 hmem

theorem count_pair_timeline {tl : Timeline}
    (hnd : (timelineKeys tl).Nodup) (k : List Char) (v : List String) :
    tl.count (k, v) =
      if k ∈ timelineKeys tl ∧ lookupTL tl k = v then 1 else 0 := by
  induction tl with
  | nil => simp [timelineKeys]
  | cons hd rest ih =>
    obtain ⟨k1, cs1⟩ := hd
    simp only [timelineKeys, List.map_cons, List.nodup_cons] at hnd
    have ihr := ih hnd.2
    rw [List.count_cons, ihr, lookupTL_cons]
    simp only [timelineKeys, List.map_cons, List.mem_cons] at hnd ⊢
    by_cases h1 : k1 = k
    · subst h1
      have h0 : ¬(k1 ∈ List.map Prod.fst rest ∧ lookupTL rest k1 = v) :=
        fun hh => hnd.1 hh.1
      rw [if_neg h0, Nat.zero_add, if_pos (rfl : k1 = k1)]
      by_cases hv : cs1 = v
      · subst hv
        simp
      · have hbeq : ((k1, cs1) == (k1, v)) = false :=
          beq_eq_false_iff_ne.mpr (fun hh => by cases hh; exact hv rfl)
        rw [hbeq, if_neg (fun hh : _ ∧ cs1 = v => hv hh.2)]
        simp
    · have hbeq : ((k1, cs1) == (k, v)) = false :=
        beq_eq_false_iff_ne.mpr (fun hh => by cases hh; exact h1 rfl)
      rw [hbeq, if_neg h1]
      have hcond : ((k = k1 ∨ k ∈ List.map Prod.fst rest) ∧ lookupTL rest k = v) ↔
          (k ∈ List.map Prod.fst rest ∧ lookupTL rest k = v) := by
        constructor
        · rintro ⟨hk | hk, hl⟩
          · exact absurd hk.symm h1
          · exact ⟨hk, hl⟩
        · rintro ⟨hk, hl⟩
          exact ⟨Or.inr hk, hl⟩
      rw [if_congr hcond rfl rfl]
      simp

/-! Lemmas about `findCourse` and the error-producing walk. -/

/-- Selects the error findings of course `X` whose message names the missing
prerequisite `P`. -/
def errFor (X P : String) (e : ValidationError) : Bool :=
  e.courseCode == X && e.error == ("Missing prerequisite: " ++ P)

theorem msg_inj {p q : String}
    (h : "Missing prerequisite: " ++ p = "Missing prerequisite: " ++ q) :
    p = q := by
  have hd := congrArg String.data h
  simp only [String.data_append] at hd
  exact String.ext (List.append_cancel_left hd)

theorem findCourse_mem {courses : List PlanCourse} {code : String}
    {c : PlanCourse} (h : findCourse courses code = some c) :
    c ∈ courses ∧ c.courseCode = code := by
  refine ⟨List.mem_of_find?_eq_some h, ?_⟩
  have := List.find?_some h
  simpa using this

theorem findCourse_first {courses : List PlanCourse} {code : String}
    {c : PlanCourse} (h : findCourse courses code = some c) :
    ∃ pre post, courses = pre ++ c :: post ∧ ∀ c' ∈ pre, c'.courseCode ≠ code := by
  induction courses with
  | nil => simp [findCourse] at h
  | cons d rest ih =>
    rw [findCourse, List.find?_cons] at h
    cases hd : (d.courseCode == code) with
    | true =>
      rw [hd] at h
      injection h with h
      exact ⟨[], rest, by simp [h], by simp⟩
    | false =>
      rw [hd] at h
      obtain ⟨pre, post, heq, hpre⟩ := ih h
      refine ⟨d :: pre, post, by rw [heq, List.cons_append], ?_⟩
      intro c' hc'
      rcases List.mem_cons.mp hc' with rfl | hc'
      · simpa using hd
      · exact hpre c' hc'

theorem code_once_unique {courses : List PlanCourse} {c c' : PlanCourse}
    (honce : (courses.map PlanCourse.courseCode).count c.courseCode = 1)
    (hc : c ∈ courses) (hc' : c' ∈ courses)
    (he : c'.courseCode = c.courseCode) : c' = c := by
  induction courses with
  | nil => simp at hc
  | cons d rest ih =>
    rw [List.map_cons, List.count_cons] at honce
    rcases List.mem_cons.mp hc with rfl | hcr
    · rcases List.mem_cons.mp hc' with rfl | hcr'
      · rfl
      · exfalso
        rw [if_pos (beq_self_eq_true _)] at honce
        have hz : (List.map PlanCourse.courseCode rest).count c.courseCode = 0 := by
          omega
        exact (List.count_eq_zero.mp hz) (he ▸ List.mem_map.mpr ⟨c', hcr', rfl⟩)
    · rcases List.mem_cons.mp hc' with rfl | hcr'
      · exfalso
        rw [if_pos (by simp [he])] at honce
        have hz : (List.map PlanCourse.courseCode rest).count c.courseCode = 0 := by
          omega
        exact (List.count_eq_zero.mp hz) (List.mem_map.mpr ⟨c, hcr, rfl⟩)
      · cases hbeq : (d.courseCode == c.courseCode) with
        | true =>
          exfalso
          rw [if_pos hbeq] at honce
          have hz : (List.map PlanCourse.courseCode rest).count c.courseCode = 0 := by
            omega
          exact (List.count_eq_zero.mp hz) (List.mem_map.mpr ⟨c, hcr, rfl⟩)
        | false =>
          rw [hbeq, if_neg (by simp)] at honce
          exact ih (by simpa using honce) hcr hcr'

theorem findCourse_unique {courses : List PlanCourse} {c : PlanCourse}
    (honce : (courses.map PlanCourse.courseCode).count c.courseCode = 1)
    (hc : c ∈ courses) : findCourse courses c.courseCode = some c := by
  cases hfind : findCourse courses c.courseCode with
  | none =>
    exfalso
    rw [findCourse, List.find?_eq_none] at hfind
    have h2 := hfind c hc
    simp at h2
  | some c'' =>
    obtain ⟨hmem, hcode⟩ := findCourse_mem hfind
    rw [code_once_unique honce hc hmem hcode]

theorem code_once_not_mem {courses : List PlanCourse} {c : PlanCourse}
    {k : List Char}
    (honce : (courses.map PlanCourse.courseCode).count c.courseCode = 1)
    (hc : c ∈ courses) (hk : k ≠ semesterKey c) :
    c.courseCode ∉ lookupTL (buildTimeline courses) k := by
  rw [lookupTL_buildTimeline]
  intro hmem
  obtain ⟨c', hc', he⟩ := List.mem_map.mp hmem
  have hcf := List.mem_filter.mp hc'
  have hc'eq : c' = c := code_once_unique honce hc hcf.1 he
  have hsk : semesterKey c' = k := by simpa using hcf.2
  rw [hc'eq] at hsk
  exact hk hsk.symm

theorem code_once_mem_own {courses : List PlanCourse} {c : PlanCourse}
    (hc : c ∈ courses) :
    c.courseCode ∈ lookupTL (buildTimeline courses) (semesterKey c) := by
  rw [lookupTL_buildTimeline]
  exact List.mem_map.mpr ⟨c, List.mem_filter.mpr ⟨hc, by simp⟩, rfl⟩

theorem count_code_own_term {courses : List PlanCourse} {c : PlanCourse}
    (honce : (courses.map PlanCourse.courseCode).count c.courseCode = 1)
    (hc : c ∈ courses) :
    (lookupTL (buildTimeline courses) (semesterKey c)).count c.courseCode = 1 := by
  have hmem := code_once_mem_own hc
  have hle : 1 ≤ (lookupTL (buildTimeline courses) (semesterKey c)).count c.courseCode :=
    List.one_le_count_iff.mpr hmem
  have hge : (lookupTL (buildTimeline courses) (semesterKey c)).count c.courseCode ≤ 1 := by
    rw [lookupTL_buildTimeline]
    calc (List.map PlanCourse.courseCode
        (courses.filter (fun c' => semesterKey c' == semesterKey c))).count c.courseCode
        ≤ (List.map PlanCourse.courseCode courses).count c.courseCode := by
          rw [List.count_eq_countP, List.count_eq_countP, List.countP_map,
            List.countP_map]
          exact List.Sublist.countP_le _ (List.filter_sublist courses)
      _ = 1 := honce
  omega

theorem mem_courseErrors {g : Graph} {allCourses : List PlanCourse}
    {completed termCs : List String} {code : String} {e : ValidationError}
    (h : e ∈ courseErrors g allCourses completed termCs code) :
    e.courseCode = code ∧
      ∃ ci, findCourse allCourses code = some ci ∧ e.year = ci.year ∧
        e.semester = ci.semester ∧ e.severity = "error" ∧
        ∃ prereq, e.error = "Missing prerequisite: " ++ prereq := by
  rw [courseErrors] at h
  obtain ⟨prereq, _, hf⟩ := List.mem_filterMap.mp h
  by_cases hcond : prereq ∉ completed ∧ prereq ∉ termCs
  · rw [if_pos hcond] at hf
    cases hfind : findCourse allCourses code with
    | none => rw [hfind] at hf; simp at hf
    | some ci =>
      rw [hfind] at hf
      injection hf with hf
      subst hf
      exact ⟨rfl, ci, rfl, rfl, rfl, rfl, prereq, rfl⟩
  · rw [if_neg hcond] at hf
    simp at hf

theorem errFor_code {X P : String} {e : ValidationError}
    (h : errFor X P e = true) : e.courseCode = X := by
  rw [errFor, Bool.and_eq_true] at h
  exact beq_iff_eq.mp h.1

theorem filter_courseErrors_ne {g : Graph} {allCourses : List PlanCourse}
    {completed termCs : List String} {code X : String}
    {p : ValidationError → Bool} (hp : ∀ e, p e = true → e.courseCode = X)
    (hne : code ≠ X) :
    (courseErrors g allCourses completed termCs code).filter p = [] := by
  rw [List.filter_eq_nil_iff]
  intro e he hpe
  exact hne ((mem_courseErrors he).1 ▸ hp e hpe)

theorem filter_courseErrors_cond_false {g : Graph} {allCourses : List PlanCourse}
    {completed termCs : List String} {X P : String}
    (hcond : P ∈ completed ∨ P ∈ termCs) :
    (courseErrors g allCourses completed termCs X).filter (errFor X P) = [] := by
  rw [List.filter_eq_nil_iff]
  intro e he hpe
  rw [courseErrors] at he
  obtain ⟨prereq, _, hf⟩ := List.mem_filterMap.mp he
  by_cases hc : prereq ∉ completed ∧ prereq ∉ termCs
  · rw [if_pos hc] at hf
    cases hfind : findCourse allCourses X with
    | none => rw [hfind] at hf; simp at hf
    | some ci =>
      rw [hfind] at hf
      injection hf with hf
      subst hf
      rw [errFor, Bool.and_eq_true] at hpe
      have hmsg : "Missing prerequisite: " ++ prereq =
          "Missing prerequisite: " ++ P := beq_iff_eq.mp hpe.2
      have := msg_inj hmsg
      subst this
      rcases hcond with hcond | hcond
      · exact hc.1 hcond
      · exact hc.2 hcond
  · rw [if_neg hc] at hf
    simp at hf

/-- The per-prerequisite step of `courseErrors` once the `findCourse`
lookup is known to return `ci`. -/
def prereqStep (completed termCs : List String) (X : String) (ci : PlanCourse)
    (prereq : String) : Option ValidationError :=
  if prereq ∉ completed ∧ prereq ∉ termCs then
    some { courseCode := X, year := ci.year, semester := ci.semester,
           error := "Missing prerequisite: " ++ prereq, severity := "error" }
  else none

theorem courseErrors_of_findCourse {g : Graph} {allCourses : List PlanCourse}
    {completed termCs : List String} {X : String} {ci : PlanCourse}
    (hfind : findCourse allCourses X = some ci) :
    courseErrors g allCourses completed termCs X =
      (graphGet g X).filterMap (prereqStep completed termCs X ci) := by
  rw [courseErrors, hfind]
  rfl

theorem filter_courseErrors_cond_true {g : Graph} {allCourses : List PlanCourse}
    {completed termCs : List String} {X P : String} {ci : PlanCourse}
    (hcond : P ∉ completed ∧ P ∉ termCs)
    (hfind : findCourse allCourses X = some ci) :
    (courseErrors g allCourses completed termCs X).filter (errFor X P) =
      List.replicate ((graphGet g X).count P)
        { courseCode := X, year := ci.year, semester := ci.semester,
          error := "Missing prerequisite: " ++ P, severity := "error" } := by
  rw [courseErrors_of_findCourse hfind]
  induction graphGet g X with
  | nil => simp
  | cons q qs ih =>
    rw [List.count_cons]
    by_cases hq : q = P
    · subst hq
      have hfq : prereqStep completed termCs X ci q =
          some { courseCode := X, year := ci.year, semester := ci.semester,
                 error := "Missing prerequisite: " ++ q, severity := "error" } := by
        rw [prereqStep, if_pos hcond]
      rw [List.filterMap_cons_some hfq,
        List.filter_cons_of_pos (by simp [errFor]), ih,
        if_pos (beq_self_eq_true q), List.replicate_succ]
    · have hbeq : ((q : String) == P) = false := beq_eq_false_iff_ne.mpr hq
      rw [hbeq, if_neg (by simp), Nat.add_zero]
      by_cases hcq : q ∉ completed ∧ q ∉ termCs
      · have hfq : prereqStep completed termCs X ci q =
            some { courseCode := X, year := ci.year, semester := ci.semester,
                   error := "Missing prerequisite: " ++ q, severity := "error" } := by
          rw [prereqStep, if_pos hcq]
        rw [List.filterMap_cons_some hfq, List.filter_cons_of_neg ?_, ih]
        rw [errFor]
        simp only [Bool.and_eq_true, beq_iff_eq, not_and]
        intro _ hmsg
        exact hq (msg_inj hmsg)
      · have hfq : prereqStep completed termCs X ci q = none := by
          rw [prereqStep, if_neg hcq]
        rw [List.filterMap_cons_none hfq, ih]

theorem filter_flatMap_not_mem {g : Graph} {allCourses : List PlanCourse}
    {completed termCs : List String} {X : String}
    {p : ValidationError → Bool} (hp : ∀ e, p e = true → e.courseCode = X) :
    ∀ l : List String, X ∉ l →
      (l.flatMap (courseErrors g allCourses completed termCs)).filter p = [] := by
  intro l
  induction l with
  | nil => simp
  | cons code cs ih =>
    intro hX
    rw [List.flatMap_cons, List.filter_append,
      filter_courseErrors_ne hp (fun hh => hX (hh ▸ List.mem_cons_self code cs)),
      ih (fun hh => hX (List.mem_cons_of_mem _ hh)), List.append_nil]

theorem filter_flatMap_count_one {g : Graph} {allCourses : List PlanCourse}
    {completed termCs : List String} {X : String}
    {p : ValidationError → Bool} (hp : ∀ e, p e = true → e.courseCode = X) :
    ∀ l : List String, l.count X = 1 →
      (l.flatMap (courseErrors g allCourses completed termCs)).filter p =
        (courseErrors g allCourses completed termCs X).filter p := by
  intro l
  induction l with
  | nil => simp
  | cons code cs ih =>
    intro hcount
    rw [List.count_cons] at hcount
    rw [List.flatMap_cons, List.filter_append]
    by_cases hc : code = X
    · subst hc
      rw [if_pos (beq_self_eq_true code)] at hcount
      have hz : cs.count code = 0 := by omega
      rw [filter_flatMap_not_mem hp cs (List.count_eq_zero.mp hz),
        List.append_nil]
    · rw [filter_courseErrors_ne hp hc, List.nil_append]
      rw [if_neg (by simp [hc])] at hcount
      exact ih (by simpa using hcount)

theorem termErrors_def (g : Graph) (allCourses : List PlanCourse)
    (completed termCs : List String) :
    termErrors g allCourses completed termCs =
      termCs.flatMap (courseErrors g allCourses completed termCs) := rfl

theorem mem_walkTerms_src {g : Graph} {allCourses : List PlanCourse}
    {tl : Timeline} {e : ValidationError} :
    ∀ (ks : List (List Char)) (comp : List String),
      e ∈ walkTerms g allCourses tl ks comp →
      ∃ comp2 termCs, e ∈ courseErrors g allCourses comp2 termCs e.courseCode := by
  intro ks
  induction ks with
  | nil => intro comp h; simp [walkTerms] at h
  | cons k rest ih =>
    intro comp h
    rw [walkTerms] at h
    rcases List.mem_append.mp h with h | h
    · rw [termErrors] at h
      obtain ⟨code, _, hce⟩ := List.mem_flatMap.mp h
      have := (mem_courseErrors hce).1
      exact ⟨_, _, this ▸ hce⟩
    · exact ih _ h

theorem walk_filter_zero {g : Graph} {allCourses : List PlanCourse}
    {tl : Timeline} {X : String} {p : ValidationError → Bool}
    (hp : ∀ e, p e = true → e.courseCode = X) :
    ∀ (ks : List (List Char)) (comp : List String),
      (∀ k ∈ ks, X ∉ lookupTL tl k) →
      (walkTerms g allCourses tl ks comp).filter p = [] := by
  intro ks
  induction ks with
  | nil => intro comp _; simp [walkTerms]
  | cons k rest ih =>
    intro comp hX
    rw [walkTerms, List.filter_append, termErrors_def,
      filter_flatMap_not_mem hp _ (hX k (List.mem_cons_self k rest)),
      ih _ (fun k' hk' => hX k' (List.mem_cons_of_mem _ hk')), List.append_nil]

theorem walk_filter_main {g : Graph} {allCourses : List PlanCourse}
    {tl : Timeline} {X : String} {p : ValidationError → Bool}
    (hp : ∀ e, p e = true → e.courseCode = X) {kstar : List Char} :
    ∀ (ks : List (List Char)) (comp : List String), ks.Nodup → kstar ∈ ks →
      (∀ k ∈ ks, k ≠ kstar → X ∉ lookupTL tl k) →
      (walkTerms g allCourses tl ks comp).filter p =
        (termErrors g allCourses
          (comp ++ (ks.takeWhile (fun k => k ≠ kstar)).flatMap (lookupTL tl))
          (lookupTL tl kstar)).filter p := by
  intro ks
  induction ks with
  | nil => intro comp _ hmem _; simp at hmem
  | cons k rest ih =>
    intro comp hnd hmem hX
    rw [List.nodup_cons] at hnd
    by_cases hk : k = kstar
    · subst hk
      rw [List.takeWhile_cons_of_neg (by simp), List.flatMap_nil,
        List.append_nil, walkTerms, List.filter_append,
        walk_filter_zero hp rest _ (fun k' hk' =>
          hX k' (List.mem_cons_of_mem _ hk')
            (fun hh => hnd.1 (hh ▸ hk'))), List.append_nil]
    · have hmem' : kstar ∈ rest := by
        rcases List.mem_cons.mp hmem with hh | hh
        · exact absurd hh.symm hk
        · exact hh
      rw [walkTerms, List.filter_append, termErrors_def,
        filter_flatMap_not_mem hp _
          (hX k (List.mem_cons_self k rest) hk), List.nil_append,
        List.takeWhile_cons_of_pos (by simp [hk]), List.flatMap_cons,
        ← List.append_assoc]
      exact ih _ hnd.2 hmem' (fun k' hk' => hX k' (List.mem_cons_of_mem _ hk'))

/-- The set of courses completed strictly before the term of key `k` is
walked: all courses of the terms that precede `k` in the processing order.
By construction it is independent of any errors those terms generated. -/
def completedBefore (tl : Timeline) (k : List Char) : List String :=
  ((sortKeys (timelineKeys tl)).takeWhile (fun k' => k' ≠ k)).flatMap (lookupTL tl)

theorem planErrors_filter_main {g : Graph} {courses : List PlanCourse}
    {c : PlanCourse} {p : ValidationError → Bool}
    (hp : ∀ e, p e = true → e.courseCode = c.courseCode)
    (honce : (courses.map PlanCourse.courseCode).count c.courseCode = 1)
    (hc : c ∈ courses) :
    (planErrors g courses).filter p =
      (termErrors g courses
        (completedBefore (buildTimeline courses) (semesterKey c))
        (lookupTL (buildTimeline courses) (semesterKey c))).filter p := by
  rw [planErrors,
    walk_filter_main hp _ [] (sortKeys_nodup (timelineKeys_nodup courses))
      (sortKeys_mem.mpr
        (mem_timelineKeys_buildTimeline.mpr ⟨c, hc, rfl⟩))
      (fun k _ hk => code_once_not_mem honce hc hk),
    List.nil_append, completedBefore]

/-! Lemmas about the credit-load warnings. -/

/-- The warning the credit-load loop emits for one term, as a total
function of the parsed year, semester name and course count. -/
def termWarning (n : Int) (sname : String) (count : Nat) :
    Option ValidationError :=
  if count * 3 < 12 then
    some { courseCode := "", year := n, semester := sname,
           error := lowMsg (count * 3), severity := "warning" }
  else if count * 3 > 18 then
    some { courseCode := "", year := n, semester := sname,
           error := highMsg (count * 3), severity := "warning" }
  else none

/-- Total reformulation of one iteration of the credit-load loop. -/
def warnOf (p : List Char × List String) : Option ValidationError :=
  match splitDash p.1 with
  | [y, s] =>
    match parseInt y with
    | some n => termWarning n (semName s) p.2.length
    | none => none
  | _ => none

/-- A timeline entry on which the credit-load loop does not raise: its key
splits in two, and the year piece parses whenever a warning is emitted. -/
def KeyOK (p : List Char × List String) : Prop :=
  ∃ y s, splitDash p.1 = [y, s] ∧
    ((p.2.length * 3 < 12 ∨ p.2.length * 3 > 18) → (parseInt y).isSome)

theorem planWarnings_ok {tl : Timeline} (h : ∀ p ∈ tl, KeyOK p) :
    planWarnings tl = .ok (tl.filterMap warnOf) := by
  induction tl with
  | nil => rfl
  | cons hd rest ih =>
    obtain ⟨k, cs⟩ := hd
    obtain ⟨y, s, hsp, hpar⟩ := h (k, cs) (List.mem_cons_self _ _)
    have hrest := ih (fun p hp => h p (List.mem_cons_of_mem _ hp))
    simp only [planWarnings, hsp]
    by_cases h12 : cs.length * 3 < 12
    · obtain ⟨n, hn⟩ := Option.isSome_iff_exists.mp (hpar (Or.inl h12))
      rw [if_pos h12, hn, hrest]
      have hw : warnOf (k, cs) =
          some { courseCode := "", year := n, semester := semName s,
                 error := lowMsg (cs.length * 3), severity := "warning" } := by
        simp only [warnOf, hsp, hn, termWarning]
        rw [if_pos h12]
      rw [List.filterMap_cons_some hw]
      rfl
    · by_cases h18 : cs.length * 3 > 18
      · obtain ⟨n, hn⟩ := Option.isSome_iff_exists.mp (hpar (Or.inr h18))
        rw [if_neg h12, if_pos h18, hn, hrest]
        have hw : warnOf (k, cs) =
            some { courseCode := "", year := n, semester := semName s,
                   error := highMsg (cs.length * 3), severity := "warning" } := by
          simp only [warnOf, hsp, hn, termWarning]
          rw [if_neg h12, if_pos h18]
        rw [List.filterMap_cons_some hw]
        rfl
      · rw [if_neg h12, if_neg h18, hrest]
        have hw : warnOf (k, cs) = none := by
          simp only [warnOf, hsp]
          cases hpi : parseInt y with
          | none => rfl
          | some n =>
            simp only [termWarning]
            rw [if_neg h12, if_neg h18]
        rw [List.filterMap_cons_none hw]

theorem planWarnings_ok_inv {tl : Timeline} {ws : List ValidationError}
    (h : planWarnings tl = .ok ws) :
    (∀ p ∈ tl, KeyOK p) ∧ ws = tl.filterMap warnOf := by
  induction tl generalizing ws with
  | nil =>
    simp only [planWarnings] at h
    injection h with h
    exact ⟨by simp, h.symm⟩
  | cons hd rest ih =>
    obtain ⟨k, cs⟩ := hd
    simp only [planWarnings] at h
    cases hsp : splitDash k with
    | nil => rw [hsp] at h; simp at h
    | cons y t =>
      cases t with
      | nil => rw [hsp] at h; simp at h
      | cons s t2 =>
        cases t2 with
        | cons u t3 => rw [hsp] at h; simp at h
        | nil =>
          simp only [hsp] at h
          by_cases h12 : cs.length * 3 < 12
          · rw [if_pos h12] at h
            cases hpi : parseInt y with
            | none => rw [hpi] at h; simp at h
            | some n =>
              rw [hpi] at h
              cases hrest : planWarnings rest with
              | error e => rw [hrest] at h; simp [Except.map] at h
              | ok ws' =>
                rw [hrest] at h
                simp only [Except.map] at h
                injection h with h
                obtain ⟨hall, hws'⟩ := ih hrest
                refine ⟨?_, ?_⟩
                · intro p hp
                  rcases List.mem_cons.mp hp with rfl | hp
                  · exact ⟨y, s, hsp, fun _ => by rw [hpi]; rfl⟩
                  · exact hall p hp
                · have hw : warnOf (k, cs) =
                      some { courseCode := "", year := n, semester := semName s,
                             error := lowMsg (cs.length * 3),
                             severity := "warning" } := by
                    simp only [warnOf, hsp, hpi, termWarning]
                    rw [if_pos h12]
                  rw [List.filterMap_cons_some hw, ← hws', ← h]
          · rw [if_neg h12] at h
            by_cases h18 : cs.length * 3 > 18
            · rw [if_pos h18] at h
              cases hpi : parseInt y with
              | none => rw [hpi] at h; simp at h
              | some n =>
                rw [hpi] at h
                cases hrest : planWarnings rest with
                | error e => rw [hrest] at h; simp [Except.map] at h
                | ok ws' =>
                  rw [hrest] at h
                  simp only [Except.map] at h
                  injection h with h
                  obtain ⟨hall, hws'⟩ := ih hrest
                  refine ⟨?_, ?_⟩
                  · intro p hp
                    rcases List.mem_cons.mp hp with rfl | hp
                    · exact ⟨y, s, hsp, fun _ => by rw [hpi]; rfl⟩
                    · exact hall p hp
                  · have hw : warnOf (k, cs) =
                        some { courseCode := "", year := n,
                               semester := semName s,
                               error := highMsg (cs.length * 3),
                               severity := "warning" } := by
                      simp only [warnOf, hsp, hpi, termWarning]
                      rw [if_neg h12, if_pos h18]
                    rw [List.filterMap_cons_some hw, ← hws', ← h]
            · rw [if_neg h18] at h
              obtain ⟨hall, hws⟩ := ih h
              refine ⟨?_, ?_⟩
              · intro p hp
                rcases List.mem_cons.mp hp with rfl | hp
                · exact ⟨y, s, hsp, fun hor => by
                    rcases hor with hor | hor
                    · exact absurd hor h12
                    · exact absurd hor h18⟩
                · exact hall p hp
              · have hw : warnOf (k, cs) = none := by
                  simp only [warnOf, hsp]
                  cases hpi : parseInt y with
                  | none => rfl
                  | some n =>
                    simp only [termWarning]
                    rw [if_neg h12, if_neg h18]
                rw [List.filterMap_cons_none hw, hws]

theorem keyOK_of_nonneg {courses : List PlanCourse}
    (hpos : ∀ c ∈ courses, 0 ≤ c.year) :
    ∀ p ∈ buildTimeline courses, KeyOK p := by
  intro p hp
  have hk : p.1 ∈ timelineKeys (buildTimeline courses) :=
    List.mem_map.mpr ⟨p, hp, rfl⟩
  obtain ⟨c, hc, hkey⟩ := mem_timelineKeys_buildTimeline.mp hk
  refine ⟨intStr c.year, [if c.semester = "Fall" then '1' else '2'], ?_, ?_⟩
  · rw [← hkey, splitDash_semesterKey (hpos c hc)]
  · intro _
    rw [parseInt_intStr (hpos c hc)]
    rfl

theorem validate_plan_ok_elim {g : Graph} {plan : StudentPlan}
    {r : PlanValidationResult} (h : validate_plan g plan = .ok r) :
    r.errors = planErrors g plan.courses ∧
      r.isValid = ((planErrors g plan.courses).length == 0) ∧
      planWarnings (buildTimeline plan.courses) = .ok r.warnings := by
  rw [validate_plan] at h
  cases hw : planWarnings (buildTimeline plan.courses) with
  | error e => rw [hw] at h; simp at h
  | ok ws =>
    rw [hw] at h
    injection h with h
    rw [← h]
    exact ⟨rfl, rfl, rfl⟩

theorem validate_plan_ok_of_nonneg {g : Graph} {plan : StudentPlan}
    (hpos : ∀ c ∈ plan.courses, 0 ≤ c.year) :
    validate_plan g plan = .ok
      { isValid := (planErrors g plan.courses).length == 0,
        errors := planErrors g plan.courses,
        warnings := (buildTimeline plan.courses).filterMap warnOf } := by
  rw [validate_plan, planWarnings_ok (keyOK_of_nonneg hpos)]

/-! Further helpers: errors under a satisfied condition, and congruence of
the walk under permutations of the input that keep the grouping. -/

theorem filter_flatMap_cond_false {g : Graph} {allCourses : List PlanCourse}
    {completed termCs : List String} {X P : String}
    (hcond : P ∈ completed ∨ P ∈ termCs) :
    ∀ l : List String,
      (l.flatMap (courseErrors g allCourses completed termCs)).filter
        (errFor X P) = [] := by
  intro l
  induction l with
  | nil => simp
  | cons code cs ih =>
    rw [List.flatMap_cons, List.filter_append, ih, List.append_nil]
    by_cases hc : code = X
    · subst hc
      exact filter_courseErrors_cond_false hcond
    · exact filter_courseErrors_ne (fun e he => errFor_code he) hc

theorem lookupTL_not_mem {tl : Timeline} {k : List Char}
    (h : k ∉ timelineKeys tl) : lookupTL tl k = [] := by
  rw [lookupTL]
  cases hf : tl.find? (fun p => p.1 == k) with
  | none => rfl
  | some p =>
    exfalso
    have hm := List.mem_of_find?_eq_some hf
    have hp := List.find?_some hf
    have : p.1 = k := by simpa using hp
    exact h (this ▸ List.mem_map.mpr ⟨p, hm, rfl⟩)

theorem courseErrors_congr {g : Graph} {A A' : List PlanCourse}
    {completed termCs : List String} {code : String}
    (h : findCourse A' code = findCourse A code) :
    courseErrors g A' completed termCs code =
      courseErrors g A completed termCs code := by
  rw [courseErrors, courseErrors, h]

theorem flatMap_courseErrors_congr {g : Graph} {A A' : List PlanCourse}
    {completed termCs : List String}
    (hf : ∀ X, findCourse A' X = findCourse A X) :
    ∀ l : List String,
      l.flatMap (courseErrors g A' completed termCs) =
        l.flatMap (courseErrors g A completed termCs) := by
  intro l
  induction l with
  | nil => rfl
  | cons code cs ih =>
    rw [List.flatMap_cons, List.flatMap_cons, courseErrors_congr (hf code), ih]

theorem termErrors_congr {g : Graph} {A A' : List PlanCourse}
    {completed : List String}
    (hf : ∀ X, findCourse A' X = findCourse A X) (termCs : List String) :
    termErrors g A' completed termCs = termErrors g A completed termCs :=
  flatMap_courseErrors_congr hf termCs

theorem walkTerms_congr {g : Graph} {A A' : List PlanCourse}
    {tl tl' : Timeline}
    (hf : ∀ X, findCourse A' X = findCourse A X)
    (hl : ∀ k, lookupTL tl' k = lookupTL tl k) :
    ∀ (ks : List (List Char)) (comp : List String),
      walkTerms g A' tl' ks comp = walkTerms g A tl ks comp := by
  intro ks
  induction ks with
  | nil => intro comp; rfl
  | cons k rest ih =>
    intro comp
    rw [walkTerms, walkTerms, hl k, termErrors_congr hf, ih]

theorem findCourse_perm {courses courses' : List PlanCourse}
    (hperm : List.Perm courses' courses)
    (hnodup : (courses.map PlanCourse.courseCode).Nodup) (X : String) :
    findCourse courses' X = findCourse courses X := by
  have hnodup' : (courses'.map PlanCourse.courseCode).Nodup :=
    ((hperm.map PlanCourse.courseCode).nodup_iff).mpr hnodup
  cases hf : findCourse courses X with
  | none =>
    rw [findCourse, List.find?_eq_none] at hf ⊢
    intro x hx
    exact hf x (hperm.mem_iff.mp hx)
  | some c =>
    obtain ⟨hmem, hcode⟩ := findCourse_mem hf
    have hmem' : c ∈ courses' := hperm.mem_iff.mpr hmem
    have honce' : (courses'.map PlanCourse.courseCode).count c.courseCode = 1 :=
      List.count_eq_one_of_mem hnodup' (List.mem_map.mpr ⟨c, hmem', rfl⟩)
    rw [← hcode]
    exact findCourse_unique honce' hmem'

theorem mem_timelineKeys_perm {courses courses' : List PlanCourse}
    (hperm : List.Perm courses' courses) (k : List Char) :
    k ∈ timelineKeys (buildTimeline courses') ↔
      k ∈ timelineKeys (buildTimeline courses) := by
  rw [mem_timelineKeys_buildTimeline, mem_timelineKeys_buildTimeline]
  constructor
  · rintro ⟨c, hc, he⟩
    exact ⟨c, hperm.mem_iff.mp hc, he⟩
  · rintro ⟨c, hc, he⟩
    exact ⟨c, hperm.mem_iff.mpr hc, he⟩

theorem lookup_eq_of_group {courses courses' : List PlanCourse}
    (hperm : List.Perm courses' courses)
    (hgroup : ∀ k ∈ timelineKeys (buildTimeline courses),
      lookupTL (buildTimeline courses') k = lookupTL (buildTimeline courses) k) :
    ∀ k, lookupTL (buildTimeline courses') k =
      lookupTL (buildTimeline courses) k := by
  intro k
  by_cases hk : k ∈ timelineKeys (buildTimeline courses)
  · exact hgroup k hk
  · have hk' : k ∉ timelineKeys (buildTimeline courses') :=
      fun hh => hk ((mem_timelineKeys_perm hperm k).mp hh)
    rw [lookupTL_not_mem hk, lookupTL_not_mem hk']

theorem mem_timeline_iff {tl : Timeline} (hnd : (timelineKeys tl).Nodup)
    {k : List Char} {v : List String} :
    (k, v) ∈ tl ↔ k ∈ timelineKeys tl ∧ lookupTL tl k = v := by
  constructor
  · intro h
    exact ⟨List.mem_map.mpr ⟨(k, v), h, rfl⟩, lookupTL_of_mem hnd h⟩
  · rintro ⟨hk, hv⟩
    obtain ⟨p, hp, hp1⟩ := List.mem_map.mp hk
    obtain ⟨k2, v2⟩ := p
    cases hp1
    have hlk := lookupTL_of_mem hnd hp
    rw [hlk] at hv
    rw [← hv]
    exact hp

theorem timeline_perm {courses courses' : List PlanCourse}
    (hperm : List.Perm courses' courses)
    (hgroup : ∀ k, lookupTL (buildTimeline courses') k =
      lookupTL (buildTimeline courses) k) :
    List.Perm (buildTimeline courses') (buildTimeline courses) := by
  refine (List.perm_ext_iff_of_nodup
    ((timelineKeys_nodup courses').of_map)
    ((timelineKeys_nodup courses).of_map)).mpr ?_
  intro p
  obtain ⟨k, v⟩ := p
  rw [mem_timeline_iff (timelineKeys_nodup courses'),
    mem_timeline_iff (timelineKeys_nodup courses)]
  exact and_congr (mem_timelineKeys_perm hperm k) (by rw [hgroup k])

theorem planErrors_perm_eq {g : Graph} {courses courses' : List PlanCourse}
    (hperm : List.Perm courses' courses)
    (hnodup : (courses.map PlanCourse.courseCode).Nodup)
    (hgroup : ∀ k, lookupTL (buildTimeline courses') k =
      lookupTL (buildTimeline courses) k) :
    planErrors g courses' = planErrors g courses := by
  have hkeysperm : List.Perm (timelineKeys (buildTimeline courses'))
      (timelineKeys (buildTimeline courses)) :=
    (List.perm_ext_iff_of_nodup (timelineKeys_nodup courses')
      (timelineKeys_nodup courses)).mpr (mem_timelineKeys_perm hperm)
  rw [planErrors, planErrors, sortKeys_congr hkeysperm]
  exact walkTerms_congr (findCourse_perm hperm hnodup) hgroup _ _

/-! Locating the credit-load warning of one term among the warnings. -/

/-- The ordinal character the grouping assigns to a course's semester:
`'1'` exactly for the string `"Fall"`, `'2'` for everything else. -/
def ordC (c : PlanCourse) : Char :=
  if c.semester = "Fall" then '1' else '2'

/-- Selects the warnings carrying the (year, semester name) of the term
group of course `c`. -/
def termPred (c : PlanCourse) (w : ValidationError) : Bool :=
  w.year == c.year && w.semester == semName [ordC c]

theorem ordC_cases (c : PlanCourse) : ordC c = '1' ∨ ordC c = '2' := by
  rw [ordC]
  split_ifs <;> simp

theorem semName_ord_inj {a b : Char} (ha : a = '1' ∨ a = '2')
    (hb : b = '1' ∨ b = '2') (h : semName [a] = semName [b]) : a = b := by
  rcases ha with rfl | rfl <;> rcases hb with rfl | rfl <;>
    first
    | rfl
    | exact absurd h (by decide)

theorem warnOf_key {c : PlanCourse} (h : 0 ≤ c.year) (cs : List String) :
    warnOf (semesterKey c, cs) =
      termWarning c.year (semName [ordC c]) cs.length := by
  simp only [warnOf, splitDash_semesterKey h, parseInt_intStr h]
  rfl

theorem termWarning_eq_some {n : Int} {sname : String} {cnt : Nat}
    {w : ValidationError} (h : termWarning n sname cnt = some w) :
    w.year = n ∧ w.semester = sname ∧ w.courseCode = "" ∧
      w.severity = "warning" := by
  rw [termWarning] at h
  split_ifs at h
  · injection h with h
    subst h
    exact ⟨rfl, rfl, rfl, rfl⟩
  · injection h with h
    subst h
    exact ⟨rfl, rfl, rfl, rfl⟩

theorem warnOf_shape {p : List Char × List String} {w : ValidationError}
    (h : warnOf p = some w) : w.courseCode = "" ∧ w.severity = "warning" := by
  cases hsp : splitDash p.1 with
  | nil =>
    simp only [warnOf, hsp] at h
    exact Option.noConfusion h
  | cons y t =>
    cases t with
    | nil =>
      simp only [warnOf, hsp] at h
      exact Option.noConfusion h
    | cons s t2 =>
      cases t2 with
      | cons u t3 =>
        simp only [warnOf, hsp] at h
        exact Option.noConfusion h
      | nil =>
        simp only [warnOf, hsp] at h
        cases hpi : parseInt y with
        | none => rw [hpi] at h; simp at h
        | some n =>
          rw [hpi] at h
          obtain ⟨_, _, h3, h4⟩ := termWarning_eq_some h
          exact ⟨h3, h4⟩

theorem termPred_false_of_ne_key {c cc : PlanCourse} {cs : List String}
    (hccy : 0 ≤ cc.year)
    (hne : semesterKey cc ≠ semesterKey c) {w : ValidationError}
    (hw : warnOf (semesterKey cc, cs) = some w) : termPred c w = false := by
  rw [warnOf_key hccy] at hw
  obtain ⟨hy, hs, -, -⟩ := termWarning_eq_some hw
  cases hb : termPred c w with
  | false => rfl
  | true =>
    exfalso
    rw [termPred, Bool.and_eq_true] at hb
    have hyear : cc.year = c.year := by
      have := beq_iff_eq.mp hb.1
      rw [hy] at this
      exact this
    have hsem : semName [ordC cc] = semName [ordC c] := by
      have := beq_iff_eq.mp hb.2
      rw [hs] at this
      exact this
    have hord : ordC cc = ordC c :=
      semName_ord_inj (ordC_cases cc) (ordC_cases c) hsem
    apply hne
    show intStr cc.year ++ ['-', ordC cc] = intStr c.year ++ ['-', ordC c]
    rw [hyear, hord]

theorem filter_warnOf_zero {courses : List PlanCourse} {c : PlanCourse}
    (hpos : ∀ x ∈ courses, 0 ≤ x.year) :
    ∀ tl2 : Timeline,
      (∀ p ∈ tl2, ∃ cc ∈ courses, semesterKey cc = p.1) →
      semesterKey c ∉ timelineKeys tl2 →
      ((tl2.filterMap warnOf).filter (termPred c)) = [] := by
  intro tl2
  induction tl2 with
  | nil => intro _ _; rfl
  | cons hd rest ih =>
    intro hkeys hnot
    obtain ⟨k', cs'⟩ := hd
    obtain ⟨cc, hcc, hkey⟩ := hkeys (k', cs') (List.mem_cons_self _ _)
    have hkey2 : semesterKey cc = k' := hkey
    have hnotrest : semesterKey c ∉ timelineKeys rest := by
      intro hh
      exact hnot (by
        simp only [timelineKeys, List.map_cons, List.mem_cons]
        exact Or.inr hh)
    have hne : semesterKey cc ≠ semesterKey c := by
      intro hh
      apply hnot
      simp only [timelineKeys, List.map_cons, List.mem_cons]
      left
      rw [← hh, hkey2]
    cases hw : warnOf (k', cs') with
    | none =>
      rw [List.filterMap_cons_none hw]
      exact ih (fun p hp => hkeys p (List.mem_cons_of_mem _ hp)) hnotrest
    | some w =>
      rw [← hkey2] at hw
      rw [List.filterMap_cons_some (hkey2 ▸ hw),
        List.filter_cons_of_neg (by
          rw [termPred_false_of_ne_key (hpos cc hcc) hne hw]
          simp)]
      exact ih (fun p hp => hkeys p (List.mem_cons_of_mem _ hp)) hnotrest

theorem filter_warnOf_main {courses : List PlanCourse} {c : PlanCourse}
    (hpos : ∀ x ∈ courses, 0 ≤ x.year) (hcy : 0 ≤ c.year) :
    ∀ tl2 : Timeline, (timelineKeys tl2).Nodup →
      (∀ p ∈ tl2, ∃ cc ∈ courses, semesterKey cc = p.1) →
      semesterKey c ∈ timelineKeys tl2 →
      ((tl2.filterMap warnOf).filter (termPred c)) =
        (termWarning c.year (semName [ordC c])
          (lookupTL tl2 (semesterKey c)).length).toList := by
  intro tl2
  induction tl2 with
  | nil => intro _ _ hmem; simp [timelineKeys] at hmem
  | cons hd rest ih =>
    intro hnd hkeys hmem
    obtain ⟨k', cs'⟩ := hd
    simp only [timelineKeys, List.map_cons, List.nodup_cons] at hnd
    by_cases hk : k' = semesterKey c
    · subst hk
      rw [lookupTL_cons, if_pos rfl]
      have hw := warnOf_key hcy cs'
      cases htw : termWarning c.year (semName [ordC c]) cs'.length with
      | none =>
        rw [List.filterMap_cons_none (by rw [hw, htw])]
        exact filter_warnOf_zero hpos rest
          (fun p hp => hkeys p (List.mem_cons_of_mem _ hp)) hnd.1
      | some w =>
        obtain ⟨hy, hs, -, -⟩ := termWarning_eq_some htw
        rw [List.filterMap_cons_some (by rw [hw, htw]),
          List.filter_cons_of_pos (by
            rw [termPred, hy, hs]
            simp),
          filter_warnOf_zero hpos rest
            (fun p hp => hkeys p (List.mem_cons_of_mem _ hp)) hnd.1]
        rfl
    · obtain ⟨cc, hcc, hkey⟩ := hkeys (k', cs') (List.mem_cons_self _ _)
      have hkey2 : semesterKey cc = k' := hkey
      have hmemrest : semesterKey c ∈ timelineKeys rest := by
        simp only [timelineKeys, List.map_cons, List.mem_cons] at hmem
        rcases hmem with hh | hh
        · exact absurd hh.symm hk
        · exact hh
      have hne : semesterKey cc ≠ semesterKey c :=
        fun hh => hk (hkey2.symm.trans hh)
      have hrec := ih hnd.2
        (fun p hp => hkeys p (List.mem_cons_of_mem _ hp)) hmemrest
      rw [lookupTL_cons, if_neg hk]
      cases hw : warnOf (k', cs') with
      | none =>
        rw [List.filterMap_cons_none hw]
        exact hrec
      | some w =>
        rw [← hkey2] at hw
        rw [List.filterMap_cons_some (hkey2 ▸ hw),
          List.filter_cons_of_neg (by
            rw [termPred_false_of_ne_key (hpos cc hcc) hne hw]
            simp)]
        exact hrec

/-! The claims. -/

/-- C8: for every plan, the returned `isValid` flag is true iff the errors
sequence is empty (warnings never affect validity); and on the empty plan
the validator returns `isValid = true` with empty errors and warnings. -/
theorem claim8_isValid_iff_errors_empty :
    (∀ (g : Graph) (plan : StudentPlan) (r : PlanValidationResult),
      validate_plan g plan = .ok r → (r.isValid = true ↔ r.errors = [])) ∧
    validate_plan course_graph { courses := [] } =
      .ok { isValid := true, errors := [], warnings := [] } := by
  constructor
  · intro g plan r h
    obtain ⟨he, hv, -⟩ := validate_plan_ok_elim h
    rw [hv, he]
    simp [List.length_eq_zero]
  · rfl

theorem claim8_witness :
    (({ isValid := true, errors := [], warnings := [] } :
        PlanValidationResult).isValid = true ↔
      ({ isValid := true, errors := [], warnings := [] } :
        PlanValidationResult).errors = []) :=
  claim8_isValid_iff_errors_empty.1 course_graph { courses := [] }
    { isValid := true, errors := [], warnings := [] } rfl

/-- C7: `validate_plan` never raises for a structurally valid plan (the
spec's data model fixes `Year` as a positive integer, and the boundary
rejects non-positive years before the validator runs): it returns a
result, and a course code absent from the graph is treated as having zero
prerequisites, producing no error finding carrying that code. -/
theorem claim7_total_on_valid_plans (g : Graph) (plan : StudentPlan)
    (hpos : ∀ c ∈ plan.courses, 0 < c.year) :
    ∃ r : PlanValidationResult, validate_plan g plan = .ok r ∧
      ∀ code : String, (∀ p ∈ g, p.1 ≠ code) →
        r.errors.filter (fun e => e.courseCode == code) = [] := by
  refine ⟨_, validate_plan_ok_of_nonneg
    (fun c hc => le_of_lt (hpos c hc)), ?_⟩
  intro code habs
  have hget : graphGet g code = [] := by
    rw [graphGet]
    cases hf : g.find? (fun p => p.1 == code) with
    | none => rfl
    | some p =>
      exact absurd (by simpa using List.find?_some hf)
        (habs p (List.mem_of_find?_eq_some hf))
  show (planErrors g plan.courses).filter
    (fun e => e.courseCode == code) = []
  rw [List.filter_eq_nil_iff]
  intro e he hpe
  rw [planErrors] at he
  obtain ⟨comp2, termCs, hce⟩ := mem_walkTerms_src _ _ he
  rw [beq_iff_eq.mp hpe, courseErrors, hget] at hce
  simp at hce

theorem claim7_witness :
    ∃ r : PlanValidationResult,
      validate_plan course_graph
        { courses := [{ courseCode := "ZZZ 9999", year := 1,
                        semester := "Fall" }] } = .ok r ∧
      ∀ code : String, (∀ p ∈ course_graph, p.1 ≠ code) →
        r.errors.filter (fun e => e.courseCode == code) = [] :=
  claim7_total_on_valid_plans course_graph _ (by decide)

/-- C9: every prerequisite error is attributed to the first plan entry
whose code matches the erroring course, regardless of which term's
processing triggered it; concretely, placing "B" (requiring the never
taken "A") in both (1, Fall) and (2, Fall) yields two errors both located
at (1, Fall) — the second term's violation is reported at the first
term's coordinates. -/
theorem claim9_first_match_attribution :
    (∀ (g : Graph) (plan : StudentPlan) (r : PlanValidationResult)
        (e : ValidationError), validate_plan g plan = .ok r →
        e ∈ r.errors →
      ∃ c pre post, plan.courses = pre ++ c :: post ∧
        c.courseCode = e.courseCode ∧
        (∀ c' ∈ pre, c'.courseCode ≠ e.courseCode) ∧
        e.year = c.year ∧ e.semester = c.semester) ∧
    validate_plan [("A", []), ("B", ["A"])]
        { courses := [{ courseCode := "B", year := 1, semester := "Fall" },
                      { courseCode := "B", year := 2, semester := "Fall" }] } =
      .ok { isValid := false,
            errors := [{ courseCode := "B", year := 1, semester := "Fall",
                         error := "Missing prerequisite: A",
                         severity := "error" },
                       { courseCode := "B", year := 1, semester := "Fall",
                         error := "Missing prerequisite: A",
                         severity := "error" }],
            warnings := [{ courseCode := "", year := 1, semester := "Fall",
                           error := lowMsg 3, severity := "warning" },
                         { courseCode := "", year := 2, semester := "Fall",
                           error := lowMsg 3, severity := "warning" }] } := by
  constructor
  · intro g plan r e h he
    rw [(validate_plan_ok_elim h).1, planErrors] at he
    obtain ⟨comp2, termCs, hce⟩ := mem_walkTerms_src _ _ he
    obtain ⟨-, ci, hfind, hy, hs, -, -⟩ := mem_courseErrors hce
    obtain ⟨pre, post, heq, hpre⟩ := findCourse_first hfind
    exact ⟨ci, pre, post, heq, (findCourse_mem hfind).2, hpre, hy, hs⟩
  · rfl

theorem claim9_witness :
    ∃ c pre post,
      ([{ courseCode := "B", year := 1, semester := "Fall" },
        { courseCode := "B", year := 2, semester := "Fall" }] :
          List PlanCourse) = pre ++ c :: post ∧
      c.courseCode = "B" ∧ (∀ c' ∈ pre, c'.courseCode ≠ "B") ∧
      (1 : Int) = c.year ∧ "Fall" = c.semester :=
  claim9_first_match_attribution.1 [("A", []), ("B", ["A"])]
    { courses := [{ courseCode := "B", year := 1, semester := "Fall" },
                  { courseCode := "B", year := 2, semester := "Fall" }] }
    { isValid := false,
      errors := [{ courseCode := "B", year := 1, semester := "Fall",
                   error := "Missing prerequisite: A", severity := "error" },
                 { courseCode := "B", year := 1, semester := "Fall",
                   error := "Missing prerequisite: A", severity := "error" }],
      warnings := [{ courseCode := "", year := 1, semester := "Fall",
                     error := lowMsg 3, severity := "warning" },
                   { courseCode := "", year := 2, semester := "Fall",
                     error := lowMsg 3, severity := "warning" }] }
    { courseCode := "B", year := 1, semester := "Fall",
      error := "Missing prerequisite: A", severity := "error" }
    rfl (by decide)

/-- C10: an entry whose semester string is not exactly "Fall" is grouped
as Spring (ordinal '2') of its year — the same group as a genuine
"Spring" entry of that year — rather than rejected, and the credit-load
warning for that group names the semester "Spring"; concretely a plan
with semesters "Summer", "fall" and "Spring" in year 1 forms a single
9-credit group warned as (1, "Spring"). -/
theorem claim10_non_fall_grouped_as_spring :
    (∀ (plan : StudentPlan) (c c' : PlanCourse), c ∈ plan.courses →
        c' ∈ plan.courses → c.semester ≠ "Fall" → c'.semester = "Spring" →
        c.year = c'.year →
        semesterKey c = semesterKey c' ∧
          c.courseCode ∈ lookupTL (buildTimeline plan.courses)
            (semesterKey c')) ∧
    validate_plan course_graph
        { courses := [{ courseCode := "X", year := 1, semester := "Summer" },
                      { courseCode := "Y", year := 1, semester := "fall" },
                      { courseCode := "Z", year := 1, semester := "Spring" }] } =
      .ok { isValid := true, errors := [],
            warnings := [{ courseCode := "", year := 1,
                           semester := "Spring", error := lowMsg 9,
                           severity := "warning" }] } := by
  constructor
  · intro plan c c' hc _ hsem hsem' hyear
    have hk : semesterKey c = semesterKey c' := by
      rw [semesterKey, semesterKey, hyear, if_neg hsem,
        if_neg (by simp [hsem'])]
    exact ⟨hk, hk ▸ code_once_mem_own hc⟩
  · rfl

theorem claim10_witness :
    semesterKey { courseCode := "X", year := 1, semester := "Summer" } =
      semesterKey { courseCode := "Z", year := 1, semester := "Spring" } ∧
    "X" ∈ lookupTL
      (buildTimeline
        [{ courseCode := "X", year := 1, semester := "Summer" },
         { courseCode := "Y", year := 1, semester := "fall" },
         { courseCode := "Z", year := 1, semester := "Spring" }])
      (semesterKey { courseCode := "Z", year := 1, semester := "Spring" }) :=
  claim10_non_fall_grouped_as_spring.1
    { courses := [{ courseCode := "X", year := 1, semester := "Summer" },
                  { courseCode := "Y", year := 1, semester := "fall" },
                  { courseCode := "Z", year := 1, semester := "Spring" }] }
    { courseCode := "X", year := 1, semester := "Summer" }
    { courseCode := "Z", year := 1, semester := "Spring" }
    (by decide) (by decide) (by decide) rfl rfl

/-- C2, counterexample: with graph {A: [], B: [A]} and "B" placed twice in
(1, Fall), the missing prerequisite "A" produces two error findings for
"B", not exactly one, because the inner loop runs once per occurrence of
the code in the term's course list. -/
theorem claim2_counterexample :
    validate_plan [("A", []), ("B", ["A"])]
        { courses := [{ courseCode := "B", year := 1, semester := "Fall" },
                      { courseCode := "B", year := 1, semester := "Fall" }] } =
      .ok { isValid := false,
            errors := [{ courseCode := "B", year := 1, semester := "Fall",
                         error := "Missing prerequisite: A",
                         severity := "error" },
                       { courseCode := "B", year := 1, semester := "Fall",
                         error := "Missing prerequisite: A",
                         severity := "error" }],
            warnings := [{ courseCode := "", year := 1, semester := "Fall",
                           error := lowMsg 6, severity := "warning" }] } ∧
    (([{ courseCode := "B", year := 1, semester := "Fall",
         error := "Missing prerequisite: A", severity := "error" },
       { courseCode := "B", year := 1, semester := "Fall",
         error := "Missing prerequisite: A", severity := "error" }] :
        List ValidationError).filter (errFor "B" "A")).length = 2 :=
  ⟨rfl, by decide⟩

/-- C2, amended: restricted to plans in which the course's code appears in
exactly one entry and to a prerequisite occurring exactly once in the
course's prerequisite list, a prerequisite P neither completed in a
strictly earlier term nor co-listed in the course's own term yields
exactly one error finding for C, located at C's own (year, semester),
whose message names P. -/
theorem claim2_amended (g : Graph) (plan : StudentPlan) (c : PlanCourse)
    (P : String) (hc : c ∈ plan.courses)
    (honce : (plan.courses.map PlanCourse.courseCode).count c.courseCode = 1)
    (hcount : (graphGet g c.courseCode).count P = 1)
    (hP1 : P ∉ completedBefore (buildTimeline plan.courses) (semesterKey c))
    (hP2 : P ∉ lookupTL (buildTimeline plan.courses) (semesterKey c))
    (r : PlanValidationResult) (hr : validate_plan g plan = .ok r) :
    r.errors.filter (errFor c.courseCode P) =
      [{ courseCode := c.courseCode, year := c.year, semester := c.semester,
         error := "Missing prerequisite: " ++ P, severity := "error" }] := by
  rw [(validate_plan_ok_elim hr).1,
    planErrors_filter_main (fun e he => errFor_code he) honce hc,
    termErrors_def,
    filter_flatMap_count_one (fun e he => errFor_code he) _
      (count_code_own_term honce hc),
    filter_courseErrors_cond_true ⟨hP1, hP2⟩ (findCourse_unique honce hc),
    hcount, List.replicate_succ, List.replicate_zero]

theorem claim2_witness :
    ({ isValid := false,
       errors := [{ courseCode := "B", year := 1, semester := "Fall",
                    error := "Missing prerequisite: A",
                    severity := "error" }],
       warnings := [{ courseCode := "", year := 1, semester := "Fall",
                      error := lowMsg 3, severity := "warning" }] } :
      PlanValidationResult).errors.filter (errFor "B" "A") =
      [{ courseCode := "B", year := 1, semester := "Fall",
         error := "Missing prerequisite: A", severity := "error" }] :=
  claim2_amended [("A", []), ("B", ["A"])]
    { courses := [{ courseCode := "B", year := 1, semester := "Fall" }] }
    { courseCode := "B", year := 1, semester := "Fall" } "A"
    (by decide) (by decide) (by decide) (by decide) (by decide)
    { isValid := false,
      errors := [{ courseCode := "B", year := 1, semester := "Fall",
                   error := "Missing prerequisite: A",
                   severity := "error" }],
      warnings := [{ courseCode := "", year := 1, semester := "Fall",
                     error := lowMsg 3, severity := "warning" }] } rfl

/-- C3, counterexample: with graph {A: [], B: [A]} and plan
[(B, 1, Fall), (A, 1, Spring), (B, 1, Spring)], the course "B" and its
prerequisite "A" share the term (1, Spring), yet the result carries an
error for "B" on account of "A" (emitted while processing the Fall
placement of "B"), so same-term co-enrollment does not suppress all
errors for the pair as the claim states. -/
theorem claim3_counterexample :
    validate_plan [("A", []), ("B", ["A"])]
        { courses := [{ courseCode := "B", year := 1, semester := "Fall" },
                      { courseCode := "A", year := 1, semester := "Spring" },
                      { courseCode := "B", year := 1, semester := "Spring" }] } =
      .ok { isValid := false,
            errors := [{ courseCode := "B", year := 1, semester := "Fall",
                         error := "Missing prerequisite: A",
                         severity := "error" }],
            warnings := [{ courseCode := "", year := 1, semester := "Fall",
                           error := lowMsg 3, severity := "warning" },
                         { courseCode := "", year := 1, semester := "Spring",
                           error := lowMsg 6, severity := "warning" }] } ∧
    "B" ∈ lookupTL
      (buildTimeline
        [{ courseCode := "B", year := 1, semester := "Fall" },
         { courseCode := "A", year := 1, semester := "Spring" },
         { courseCode := "B", year := 1, semester := "Spring" }])
      (semesterKey { courseCode := "B", year := 1, semester := "Spring" }) ∧
    "A" ∈ lookupTL
      (buildTimeline
        [{ courseCode := "B", year := 1, semester := "Fall" },
         { courseCode := "A", year := 1, semester := "Spring" },
         { courseCode := "B", year := 1, semester := "Spring" }])
      (semesterKey { courseCode := "B", year := 1, semester := "Spring" }) ∧
    ([{ courseCode := "B", year := 1, semester := "Fall",
        error := "Missing prerequisite: A", severity := "error" }] :
        List ValidationError).filter (errFor "B" "A") ≠ [] :=
  ⟨rfl, by decide, by decide, by decide⟩

/-- C3, amended: restricted to plans in which the course's code appears in
exactly one entry, a prerequisite P present in the course's own term
group generates no error finding for the course on account of P, even if
P was never completed earlier. -/
theorem claim3_amended (g : Graph) (plan : StudentPlan) (c : PlanCourse)
    (P : String) (hc : c ∈ plan.courses)
    (honce : (plan.courses.map PlanCourse.courseCode).count c.courseCode = 1)
    (hP : P ∈ lookupTL (buildTimeline plan.courses) (semesterKey c))
    (r : PlanValidationResult) (hr : validate_plan g plan = .ok r) :
    r.errors.filter (errFor c.courseCode P) = [] := by
  rw [(validate_plan_ok_elim hr).1,
    planErrors_filter_main (fun e he => errFor_code he) honce hc,
    termErrors_def,
    filter_flatMap_cond_false (Or.inr hP)]

theorem claim3_witness :
    ({ isValid := true, errors := [],
       warnings := [{ courseCode := "", year := 1, semester := "Fall",
                      error := lowMsg 6, severity := "warning" }] } :
      PlanValidationResult).errors.filter (errFor "B" "A") = [] :=
  claim3_amended [("A", []), ("B", ["A"])]
    { courses := [{ courseCode := "A", year := 1, semester := "Fall" },
                  { courseCode := "B", year := 1, semester := "Fall" }] }
    { courseCode := "B", year := 1, semester := "Fall" } "A"
    (by decide) (by decide) (by decide)
    { isValid := true, errors := [],
      warnings := [{ courseCode := "", year := 1, semester := "Fall",
                     error := lowMsg 6, severity := "warning" }] } rfl

/-- C4: every course of a processed term enters the completed set whether
or not it generated an error — `completedBefore` is by construction the
union of all courses of strictly earlier terms, with no reference to
errors — so a course placed (once) in a term, one of whose prerequisites
Q was placed in a strictly earlier term, receives no error about Q even
when Q itself had a violation.  The witness instantiates the three-term
chain with a violating middle course. -/
theorem claim4_completed_regardless_of_errors (g : Graph)
    (plan : StudentPlan) (d : PlanCourse) (Q : String)
    (hd : d ∈ plan.courses)
    (honce : (plan.courses.map PlanCourse.courseCode).count d.courseCode = 1)
    (hQ : Q ∈ completedBefore (buildTimeline plan.courses) (semesterKey d))
    (r : PlanValidationResult) (hr : validate_plan g plan = .ok r) :
    r.errors.filter (errFor d.courseCode Q) = [] := by
  rw [(validate_plan_ok_elim hr).1,
    planErrors_filter_main (fun e he => errFor_code he) honce hd,
    termErrors_def,
    filter_flatMap_cond_false (Or.inl hQ)]

theorem claim4_witness :
    ({ isValid := false,
       errors := [{ courseCode := "B", year := 1, semester := "Fall",
                    error := "Missing prerequisite: A",
                    severity := "error" }],
       warnings := [{ courseCode := "", year := 1, semester := "Fall",
                      error := lowMsg 3, severity := "warning" },
                    { courseCode := "", year := 1, semester := "Spring",
                      error := lowMsg 3, severity := "warning" }] } :
      PlanValidationResult).errors.filter (errFor "C" "B") = [] ∧
    validate_plan [("A", []), ("B", ["A"]), ("C", ["B"])]
        { courses := [{ courseCode := "B", year := 1, semester := "Fall" },
                      { courseCode := "C", year := 1, semester := "Spring" }] } =
      .ok { isValid := false,
            errors := [{ courseCode := "B", year := 1, semester := "Fall",
                         error := "Missing prerequisite: A",
                         severity := "error" }],
            warnings := [{ courseCode := "", year := 1, semester := "Fall",
                           error := lowMsg 3, severity := "warning" },
                         { courseCode := "", year := 1, semester := "Spring",
                           error := lowMsg 3, severity := "warning" }] } :=
  ⟨claim4_completed_regardless_of_errors
    [("A", []), ("B", ["A"]), ("C", ["B"])]
    { courses := [{ courseCode := "B", year := 1, semester := "Fall" },
                  { courseCode := "C", year := 1, semester := "Spring" }] }
    { courseCode := "C", year := 1, semester := "Spring" } "B"
    (by decide) (by decide) (by decide)
    { isValid := false,
      errors := [{ courseCode := "B", year := 1, semester := "Fall",
                   error := "Missing prerequisite: A",
                   severity := "error" }],
      warnings := [{ courseCode := "", year := 1, semester := "Fall",
                     error := lowMsg 3, severity := "warning" },
                   { courseCode := "", year := 1, semester := "Spring",
                     error := lowMsg 3, severity := "warning" }] } rfl,
    rfl⟩

/-- C6: for every (structurally valid) plan and every term group — named
by any course `c` it contains — the term's total credits is its course
count times the fallback constant 3, and the result carries exactly one
low-load warning for that (year, semester) iff the total is < 12, exactly
one high-load warning iff it is > 18, and none when 12 ≤ total ≤ 18;
every warning carries an empty course code and severity "warning". -/
theorem claim6_credit_load_boundaries (g : Graph) (plan : StudentPlan)
    (hpos : ∀ x ∈ plan.courses, 0 < x.year) (c : PlanCourse)
    (hc : c ∈ plan.courses) (r : PlanValidationResult)
    (hr : validate_plan g plan = .ok r) :
    (r.warnings.filter (termPred c) =
      (if (lookupTL (buildTimeline plan.courses) (semesterKey c)).length * 3
          < 12 then
        [{ courseCode := "", year := c.year, semester := semName [ordC c],
           error := lowMsg
             ((lookupTL (buildTimeline plan.courses)
               (semesterKey c)).length * 3),
           severity := "warning" }]
      else if (lookupTL (buildTimeline plan.courses)
          (semesterKey c)).length * 3 > 18 then
        [{ courseCode := "", year := c.year, semester := semName [ordC c],
           error := highMsg
             ((lookupTL (buildTimeline plan.courses)
               (semesterKey c)).length * 3),
           severity := "warning" }]
      else [])) ∧
    ∀ w ∈ r.warnings, w.courseCode = "" ∧ w.severity = "warning" := by
  have hpos2 : ∀ x ∈ plan.courses, 0 ≤ x.year :=
    fun x hx => le_of_lt (hpos x hx)
  have hw : planWarnings (buildTimeline plan.courses) = .ok r.warnings :=
    (validate_plan_ok_elim hr).2.2
  have hws : r.warnings = (buildTimeline plan.courses).filterMap warnOf :=
    (planWarnings_ok_inv hw).2
  constructor
  · rw [hws, filter_warnOf_main hpos2 (hpos2 c hc)
      (buildTimeline plan.courses) (timelineKeys_nodup plan.courses)
      (fun p hp => mem_timelineKeys_buildTimeline.mp
        (List.mem_map.mpr ⟨p, hp, rfl⟩))
      (mem_timelineKeys_buildTimeline.mpr ⟨c, hc, rfl⟩), termWarning]
    split_ifs <;> rfl
  · intro w hwmem
    rw [hws] at hwmem
    obtain ⟨p, -, hwp⟩ := List.mem_filterMap.mp hwmem
    exact warnOf_shape hwp

theorem claim6_witness :
    ({ isValid := true, errors := [],
       warnings := [{ courseCode := "", year := 1, semester := "Fall",
                      error := lowMsg 3, severity := "warning" }] } :
        PlanValidationResult).warnings.filter
      (termPred { courseCode := "CS 1110", year := 1, semester := "Fall" }) =
      [{ courseCode := "", year := 1, semester := "Fall",
         error := lowMsg 3, severity := "warning" }] ∧
    ∀ w ∈ ({ isValid := true, errors := [],
             warnings := [{ courseCode := "", year := 1, semester := "Fall",
                            error := lowMsg 3, severity := "warning" }] } :
        PlanValidationResult).warnings,
      w.courseCode = "" ∧ w.severity = "warning" :=
  claim6_credit_load_boundaries course_graph
    { courses := [{ courseCode := "CS 1110", year := 1,
                    semester := "Fall" }] }
    (by decide) { courseCode := "CS 1110", year := 1, semester := "Fall" }
    (by decide)
    { isValid := true, errors := [],
      warnings := [{ courseCode := "", year := 1, semester := "Fall",
                     error := lowMsg 3, severity := "warning" }] } rfl

/-! Chronological order of the processed term keys. -/

/-- Strict chronological order on parsed term keys: strictly earlier year
first; within the same year, Fall (ordinal "1") strictly before Spring
(ordinal "2"). -/
def keyChronoLT (k1 k2 : List Char) : Bool :=
  match parseKeyO k1, parseKeyO k2 with
  | some (y1, s1), some (y2, s2) =>
    decide (y1 < y2) || (y1 == y2 && (s1 == ['1'] && s2 == ['2']))
  | _, _ => false

/-- The key list is in strictly ascending true chronological order. -/
def chronoSorted : List (List Char) → Bool
  | [] => true
  | [_] => true
  | k1 :: k2 :: rest => keyChronoLT k1 k2 && chronoSorted (k2 :: rest)

/-- All term keys a plan with single-digit years can produce. -/
def goodKeys : List (List Char) :=
  [['1', '-', '1'], ['1', '-', '2'], ['2', '-', '1'], ['2', '-', '2'],
   ['3', '-', '1'], ['3', '-', '2'], ['4', '-', '1'], ['4', '-', '2'],
   ['5', '-', '1'], ['5', '-', '2'], ['6', '-', '1'], ['6', '-', '2'],
   ['7', '-', '1'], ['7', '-', '2'], ['8', '-', '1'], ['8', '-', '2'],
   ['9', '-', '1'], ['9', '-', '2']]

theorem semesterKey_mem_goodKeys {c : PlanCourse} (h1 : 1 ≤ c.year)
    (h9 : c.year ≤ 9) : semesterKey c ∈ goodKeys := by
  obtain ⟨code, y, sem⟩ := c
  simp only at h1 h9
  rw [semesterKey]
  by_cases hsem : sem = "Fall"
  · simp only [if_pos hsem]
    interval_cases y <;> decide
  · simp only [if_neg hsem]
    interval_cases y <;> decide

theorem goodKeys_strLe_chrono :
    ∀ a ∈ goodKeys, ∀ b ∈ goodKeys, keyLe a b = true → a ≠ b →
      keyChronoLT a b = true := by decide

theorem chronoSorted_of_pairwise :
    ∀ l : List (List Char), (∀ k ∈ l, k ∈ goodKeys) →
      List.Pairwise (fun a b => KeyLE a b ∧ a ≠ b) l →
      chronoSorted l = true := by
  intro l
  induction l with
  | nil => intro _ _; rfl
  | cons k1 rest ih =>
    intro hsub hp
    cases rest with
    | nil => rfl
    | cons k2 rest2 =>
      have h12 := (List.pairwise_cons.mp hp).1 k2 (List.mem_cons_self _ _)
      show (keyChronoLT k1 k2 && chronoSorted (k2 :: rest2)) = true
      rw [goodKeys_strLe_chrono k1 (hsub k1 (List.mem_cons_self _ _)) k2
          (hsub k2 (List.mem_cons_of_mem _ (List.mem_cons_self _ _)))
          h12.1 h12.2, Bool.true_and]
      exact ih (fun k hk => hsub k (List.mem_cons_of_mem _ hk))
        (List.pairwise_cons.mp hp).2

/-- C1, counterexample: with years 10 and 2 (both positive), the string
sort puts key "10-1" before "2-1", so the processed order is not
chronological, and the completed-set walk misses the earlier term: "B"
(year 10), whose prerequisite "A" sits in year 2, is reported as missing
"A". -/
theorem claim1_counterexample :
    chronoSorted (sortKeys (timelineKeys (buildTimeline
      [{ courseCode := "B", year := 10, semester := "Fall" },
       { courseCode := "A", year := 2, semester := "Fall" }]))) = false ∧
    validate_plan [("A", []), ("B", ["A"])]
        { courses := [{ courseCode := "B", year := 10, semester := "Fall" },
                      { courseCode := "A", year := 2, semester := "Fall" }] } =
      .ok { isValid := false,
            errors := [{ courseCode := "B", year := 10, semester := "Fall",
                         error := "Missing prerequisite: A",
                         severity := "error" }],
            warnings := [{ courseCode := "", year := 10, semester := "Fall",
                           error := lowMsg 3, severity := "warning" },
                         { courseCode := "", year := 2, semester := "Fall",
                           error := lowMsg 3, severity := "warning" }] } :=
  ⟨rfl, rfl⟩

/-- C1, amended: for every plan whose years all lie between 1 and 9, the
lexicographic sort of the term keys coincides with true chronological
order — Fall of year N before Spring of year N, and every term of year N
before every term of year N+1 — so the completed-set walk sees earlier
terms first.  (With years of different digit lengths the string sort is
not chronological, as the counterexample shows.) -/
theorem claim1_amended (plan : StudentPlan)
    (hy : ∀ c ∈ plan.courses, 1 ≤ c.year ∧ c.year ≤ 9) :
    chronoSorted (sortKeys (timelineKeys (buildTimeline plan.courses))) =
      true := by
  apply chronoSorted_of_pairwise
  · intro k hk
    obtain ⟨c, hc, hkey⟩ :=
      mem_timelineKeys_buildTimeline.mp (sortKeys_mem.mp hk)
    exact hkey ▸ semesterKey_mem_goodKeys (hy c hc).1 (hy c hc).2
  · exact List.Pairwise.and
      (sortKeys_sorted (timelineKeys (buildTimeline plan.courses)))
      (sortKeys_nodup (timelineKeys_nodup plan.courses))

theorem claim1_witness :
    chronoSorted (sortKeys (timelineKeys (buildTimeline
      ({ courses := [{ courseCode := "P", year := 2, semester := "Spring" },
                     { courseCode := "Q", year := 1, semester := "Fall" }] } :
        StudentPlan).courses))) = true :=
  claim1_amended
    { courses := [{ courseCode := "P", year := 2, semester := "Spring" },
                  { courseCode := "Q", year := 1, semester := "Fall" }] }
    (by decide)

/-- C5, counterexample: the two plans [("A",1,Fall), ("B",1,Spring)] and
[("B",1,Spring), ("A",1,Fall)] are permutations of one another inducing
identical term groupings (each group's ordered course list is unchanged),
yet the ValidationResults differ: the warnings loop follows the dict's
insertion order, which follows first occurrence in the input list, so the
two low-load warnings come out in opposite orders. -/
theorem claim5_counterexample :
    List.Perm
      ({ courses := [{ courseCode := "B", year := 1, semester := "Spring" },
                     { courseCode := "A", year := 1, semester := "Fall" }] } :
        StudentPlan).courses
      ({ courses := [{ courseCode := "A", year := 1, semester := "Fall" },
                     { courseCode := "B", year := 1, semester := "Spring" }] } :
        StudentPlan).courses ∧
    (∀ k ∈ timelineKeys (buildTimeline
        [{ courseCode := "A", year := 1, semester := "Fall" },
         { courseCode := "B", year := 1, semester := "Spring" }]),
      lookupTL (buildTimeline
        [{ courseCode := "B", year := 1, semester := "Spring" },
         { courseCode := "A", year := 1, semester := "Fall" }]) k =
      lookupTL (buildTimeline
        [{ courseCode := "A", year := 1, semester := "Fall" },
         { courseCode := "B", year := 1, semester := "Spring" }]) k) ∧
    validate_plan course_graph
        { courses := [{ courseCode := "A", year := 1, semester := "Fall" },
                      { courseCode := "B", year := 1, semester := "Spring" }] } =
      .ok { isValid := true, errors := [],
            warnings := [{ courseCode := "", year := 1, semester := "Fall",
                           error := lowMsg 3, severity := "warning" },
                         { courseCode := "", year := 1, semester := "Spring",
                           error := lowMsg 3, severity := "warning" }] } ∧
    validate_plan course_graph
        { courses := [{ courseCode := "B", year := 1, semester := "Spring" },
                      { courseCode := "A", year := 1, semester := "Fall" }] } =
      .ok { isValid := true, errors := [],
            warnings := [{ courseCode := "", year := 1, semester := "Spring",
                           error := lowMsg 3, severity := "warning" },
                         { courseCode := "", year := 1, semester := "Fall",
                           error := lowMsg 3, severity := "warning" }] } ∧
    ({ isValid := true, errors := [],
       warnings := [{ courseCode := "", year := 1, semester := "Fall",
                      error := lowMsg 3, severity := "warning" },
                    { courseCode := "", year := 1, semester := "Spring",
                      error := lowMsg 3, severity := "warning" }] } :
      PlanValidationResult) ≠
    { isValid := true, errors := [],
      warnings := [{ courseCode := "", year := 1, semester := "Spring",
                     error := lowMsg 3, severity := "warning" },
                   { courseCode := "", year := 1, semester := "Fall",
                     error := lowMsg 3, severity := "warning" }] } :=
  ⟨by decide, by decide, rfl, rfl, by decide⟩

/-- C5, amended: a permutation of the entry list that leaves each term's
ordered course list unchanged, on a plan without duplicate course codes,
yields the same isValid flag and the same errors sequence, and the same
warnings up to order (the warnings sequence follows the first-occurrence
order of the terms in the input list). -/
theorem claim5_amended (g : Graph) (plan plan' : StudentPlan)
    (hperm : List.Perm plan'.courses plan.courses)
    (hnodup : (plan.courses.map PlanCourse.courseCode).Nodup)
    (hgroup : ∀ k ∈ timelineKeys (buildTimeline plan.courses),
      lookupTL (buildTimeline plan'.courses) k =
        lookupTL (buildTimeline plan.courses) k)
    (r : PlanValidationResult) (hr : validate_plan g plan = .ok r) :
    ∃ r', validate_plan g plan' = .ok r' ∧ r'.isValid = r.isValid ∧
      r'.errors = r.errors ∧ List.Perm r'.warnings r.warnings := by
  have hg : ∀ k, lookupTL (buildTimeline plan'.courses) k =
      lookupTL (buildTimeline plan.courses) k :=
    lookup_eq_of_group hperm hgroup
  have herr : planErrors g plan'.courses = planErrors g plan.courses :=
    planErrors_perm_eq hperm hnodup hg
  have htlperm : List.Perm (buildTimeline plan'.courses)
      (buildTimeline plan.courses) := timeline_perm hperm hg
  obtain ⟨he, hv, hw⟩ := validate_plan_ok_elim hr
  obtain ⟨hkeysok, hws⟩ := planWarnings_ok_inv hw
  have hkeysok2 : ∀ p ∈ buildTimeline plan'.courses, KeyOK p :=
    fun p hp => hkeysok p (htlperm.mem_iff.mp hp)
  refine ⟨{ isValid := (planErrors g plan'.courses).length == 0,
            errors := planErrors g plan'.courses,
            warnings := (buildTimeline plan'.courses).filterMap warnOf },
    ?_, ?_, ?_, ?_⟩
  · rw [validate_plan, planWarnings_ok hkeysok2]
  · show ((planErrors g plan'.courses).length == 0) = r.isValid
    rw [herr, hv]
  · show planErrors g plan'.courses = r.errors
    rw [herr, he]
  · show List.Perm ((buildTimeline plan'.courses).filterMap warnOf)
      r.warnings
    rw [hws]
    exact htlperm.filterMap warnOf

theorem claim5_witness :
    ∃ r', validate_plan course_graph
        { courses :=
            [{ courseCode := "CS 2100", year := 1, semester := "Spring" },
             { courseCode := "CS 1110", year := 1, semester := "Fall" }] } =
        .ok r' ∧
      r'.isValid = true ∧ r'.errors = [] ∧
      List.Perm r'.warnings
        [{ courseCode := "", year := 1, semester := "Fall",
           error := lowMsg 3, severity := "warning" },
         { courseCode := "", year := 1, semester := "Spring",
           error := lowMsg 3, severity := "warning" }] :=
  claim5_amended course_graph
    { courses := [{ courseCode := "CS 1110", year := 1, semester := "Fall" },
                  { courseCode := "CS 2100", year := 1,
                    semester := "Spring" }] }
    { courses := [{ courseCode := "CS 2100", year := 1,
                    semester := "Spring" },
                  { courseCode := "CS 1110", year := 1,
                    semester := "Fall" }] }
    (by decide) (by decide) (by decide)
    { isValid := true, errors := [],
      warnings := [{ courseCode := "", year := 1, semester := "Fall",
                     error := lowMsg 3, severity := "warning" },
                   { courseCode := "", year := 1, semester := "Spring",
                     error := lowMsg 3, severity := "warning" }] } rfl

end HHelper
